import Mathlib

/-!
Shallow embedding of the minimal-perfect-hash generator in
`src/std/gen/hash.py` (vendored from ilanschnell/perfect-hash), together
with proofs of the specification claims about it.

Modelling conventions:
* Python integers are `Nat`/`Int`; Python's `%` on a possibly negative
  left operand with a positive modulus is `pymod` below.
* Byte strings (`key.encode()`) are `List Nat` of byte values.
* `random.choice` / `random.randrange` draws are an abstract stream
  `Nat → Nat` consumed with an explicit cursor.
* The `while` loops of `assign_vertex_values` and the trial loop of
  `generate_hash` are given explicit fuel; `none` means the fuel ran out
  (which is proved not to happen where a claim needs it).  A normal
  Python return of value `v` is `some v`.
-/

namespace PerfectHash

/-- Python's `a % n` for a positive modulus `n`: the least non-negative
representative.  (`Int.emod` alone follows the sign of `a`.) -/
def pymod (a : Int) (n : Nat) : Int := (a % (n : Int) + n) % n

theorem pymod_nonneg (a : Int) (n : Nat) (hn : 0 < n) : 0 ≤ pymod a n := by
  unfold pymod
  have : ((n : Nat) : Int) ≠ 0 := by exact_mod_cast Nat.pos_iff_ne_zero.mp hn
  exact Int.emod_nonneg _ this

theorem pymod_lt (a : Int) (n : Nat) (hn : 0 < n) : pymod a n < n := by
  unfold pymod
  exact Int.emod_lt_of_pos _ (by exact_mod_cast hn)

theorem pymod_emod (a : Int) (n : Nat) : pymod a n % n = pymod a n := by
  unfold pymod
  exact Int.emod_emod_of_dvd _ dvd_rfl

/-- `pymod a n` is congruent to `a` modulo `n`. -/
theorem pymod_modEq (a : Int) (n : Nat) : pymod a n ≡ a [ZMOD (n : Int)] := by
  show pymod a n % (n : Int) = a % (n : Int)
  unfold pymod
  rw [Int.emod_emod_of_dvd _ dvd_rfl]
  simp [Int.add_emod, Int.emod_self, Int.emod_emod_of_dvd _ dvd_rfl]

/-- If `a ≡ b [ZMOD n]` with `0 ≤ b < n`, then `pymod a n = b`. -/
theorem pymod_eq_of_modEq {a b : Int} {n : Nat}
    (h : a ≡ b [ZMOD (n : Int)]) (hb0 : 0 ≤ b) (hbn : b < n) : pymod a n = b := by
  have h1 : pymod a n ≡ b [ZMOD (n : Int)] := (pymod_modEq a n).trans h
  have h2 : pymod a n % (n : Int) = b % (n : Int) := h1
  rwa [pymod_emod, Int.emod_eq_of_lt hb0 hbn] at h2

/-! ## Salted hash functions (`StrSaltHash`, `IntSaltHash`)

Both classes keep a growable `salt` and hash a byte string `key` as
`sum(salt[i] * c for i, c in enumerate(key)) % N`, first extending the
salt with fresh random draws until it is at least as long as the key.
They differ only in the distribution drawn from (`random.choice` of an
alphanumeric byte for `StrSaltHash`, `random.randrange(1, N)` for
`IntSaltHash`), which we abstract into a draw stream `rng : Nat → Nat`
consumed at a cursor. -/

/-- `sum(salt[i] * c for i, c in enumerate(key))`. -/
def weightedSum (salt key : List Nat) : Nat :=
  (List.range key.length).foldl
    (fun acc i => acc + salt.getD i 0 * key.getD i 0) 0

/-- The `while len(self.salt) < len(key): self.salt.append(<draw>)` loop:
returns the extended salt and the advanced cursor. -/
def growSalt (rng : Nat → Nat) : List Nat → Nat → Nat → List Nat × Nat
  | salt, cur, keyLen =>
    if h : salt.length < keyLen then
      growSalt rng (salt ++ [rng cur]) (cur + 1) keyLen
    else
      (salt, cur)
termination_by salt _ keyLen => keyLen - salt.length
decreasing_by
  simp only [List.length_append, List.length_cons, List.length_nil]
  omega

/-- `StrSaltHash.__call__`: grow the salt to cover the key, then return
the weighted sum modulo `N` (together with the new salt and cursor). -/
def strSaltHashCall (N : Nat) (salt : List Nat) (rng : Nat → Nat) (cur : Nat)
    (key : List Nat) : List Nat × Nat × Nat :=
  let g := growSalt rng salt cur key.length
  (g.1, g.2, weightedSum g.1 key % N)

/-- `IntSaltHash.__call__`: structurally identical to `StrSaltHash.__call__`
(the draw distribution differs, which the abstract stream absorbs). -/
def intSaltHashCall (N : Nat) (salt : List Nat) (rng : Nat → Nat) (cur : Nat)
    (key : List Nat) : List Nat × Nat × Nat :=
  let g := growSalt rng salt cur key.length
  (g.1, g.2, weightedSum g.1 key % N)

/-- The pure hash function computed by a salt whose length already covers
every key it is applied to: `sum(salt[i]*c) % N`. -/
def strSaltFn (salt : List Nat) (N : Nat) (key : List Nat) : Nat :=
  weightedSum salt key % N

/-! ## The constraint graph (`class Graph`) -/

/-- `Graph`: `N` vertices and the list of `connect` calls in order.
`adjacent` below recovers the Python adjacency lists. -/
structure Graph where
  N : Nat
  edges : List (Nat × Nat × Nat)
deriving DecidableEq

/-- `Graph.connect(vertex1, vertex2, edge_value)`. -/
def Graph.connect (g : Graph) (vertex1 vertex2 edgeValue : Nat) : Graph :=
  { g with edges := g.edges ++ [(vertex1, vertex2, edgeValue)] }

/-- The adjacency list of `v`: each `connect(a, b, e)` appended `(b, e)` to
`adjacent[a]` and `(a, e)` to `adjacent[b]` (in that order; a self-loop
contributes two entries). -/
def Graph.adjacent (g : Graph) (v : Nat) : List (Nat × Nat) :=
  g.edges.foldr
    (fun x acc =>
      (if x.1 = v then [(x.2.1, x.2.2)] else []) ++
      (if x.2.1 = v then [(x.1, x.2.2)] else []) ++ acc) []

/-! ## `Graph.assign_vertex_values`

The Python method initialises `vertex_values` to `N * [-1]` and
`visited` to `N * [False]`, then loops over all roots `0..N-1`; each
unvisited root is assigned value 0 and explored with an explicit stack
of `(parent, vertex)` pairs.  Popping a vertex marks it visited and
scans its adjacency list, skipping the parent once; a visited neighbour
means the graph is cyclic and `False` is returned at once, otherwise
the neighbour is pushed and assigned `(edge_value - value[vertex]) % N`.
After the loop every value is asserted non-negative and `True` returned.

We model `vertex_values` and `visited` as total functions (the Python
lists are only ever indexed below `N`, which the well-formedness
hypotheses of the theorems guarantee), and give the `while tovisit`
loop fuel `N + 1`, proved sufficient below. -/

/-- Vertex values (`-1` = unassigned). -/
abbrev VV := Nat → Int

/-- Visited flags. -/
abbrev Visited := Nat → Bool

/-- A `(parent, vertex)` stack entry; the root entry has parent `none`. -/
abbrev StackEntry := Option Nat × Nat

/-- Pointwise update of a total function (a Python list store). -/
def updF {α : Type} (f : Nat → α) (i : Nat) (x : α) : Nat → α :=
  fun j => if j = i then x else f j

/-- The inner `for neighbor, edge_value in self.adjacent[vertex]` loop.
Arguments: remaining adjacency entries, the `skip` flag, the (already
updated) visited flags, the current vertex values, and the new stack
entries accumulated so far (topmost first).  The result pairs the
updated vertex values with `none` when Python executed `return False`,
and with the new stack entries otherwise. -/
def scan (N vertex : Nat) (parent : Option Nat) :
    List (Nat × Nat) → Bool → Visited → VV → List StackEntry →
      VV × Option (List StackEntry)
  | [], _, _, vv, acc => (vv, some acc)
  | (nb, e) :: rest, skip, visited, vv, acc =>
    if skip && (some nb == parent) then
      scan N vertex parent rest false visited vv acc
    else if visited nb then
      (vv, none)
    else
      scan N vertex parent rest skip visited
        (updF vv nb (pymod ((e : Int) - vv vertex) N))
        ((some vertex, nb) :: acc)

/-- Result of the `while tovisit` loop: Python returned `False`, or the
stack emptied normally. -/
inductive LoopRes where
  | falsed (vv : VV)
  | done (visited : Visited) (vv : VV)

/-- The `while tovisit` loop.  The stack's head is its top (Python pops
from the end of the list it appends to). -/
def dfsLoop (g : Graph) : Nat → List StackEntry → Visited → VV → Option LoopRes
  | fuel, stack, visited, vv =>
    match stack with
    | [] => some (.done visited vv)
    | (parent, vertex) :: rest =>
      match fuel with
      | 0 => none
      | fuel + 1 =>
        let visited' := updF visited vertex true
        match scan g.N vertex parent (g.adjacent vertex) true visited' vv [] with
        | (vv', none) => some (.falsed vv')
        | (vv', some pushes) => dfsLoop g fuel (pushes ++ rest) visited' vv'

/-- The outer `for root in range(self.N)` loop, followed by the final
`assert self.vertex_values[vertex] >= 0` check (a failing assert is a
crash, modelled as `none`; it is proved unreachable). -/
def rootsLoop (g : Graph) : List Nat → Visited → VV → Option (Bool × VV)
  | [], _, vv =>
    if (List.range g.N).all (fun v => decide ((0 : Int) ≤ vv v)) then
      some (true, vv)
    else
      none
  | root :: rs, visited, vv =>
    if visited root then
      rootsLoop g rs visited vv
    else
      match dfsLoop g (g.N + 1) [(none, root)] visited (updF vv root 0) with
      | none => none
      | some (.falsed vv') => some (false, vv')
      | some (.done visited' vv') => rootsLoop g rs visited' vv'

/-- `Graph.assign_vertex_values`: `some (b, vv)` means Python returned
`b` leaving `self.vertex_values = vv`. -/
def Graph.assign_vertex_values (g : Graph) : Option (Bool × VV) :=
  rootsLoop g (List.range g.N) (fun _ => false) (fun _ => -1)

/-- `assign_vertex_values` with `self.vertex_values` read back as the
list `[vv[0], ..., vv[N-1]]` (the form `generate_hash` consumes). -/
def Graph.assignList (g : Graph) : Option (Bool × List Int) :=
  g.assign_vertex_values.map (fun r => (r.1, (List.range g.N).map r.2))

/-! ## `generate_hash`

Python-level inputs: `generate_hash(keys, Hash, pow2)` first checks
`isinstance(keys, (list, tuple))`, then `len(keys) != len(set(keys))`,
then that every key is a `str`.  We model the dynamically typed `keys`
argument with `PyKeys`/`PyVal`.  The random hash functions drawn per
trial (`f1 = Hash(NG); f2 = Hash(NG)`) are abstracted into a generator
`mk : trial → NG → (f1, f2)`; claims that depend on the concrete hash
family constrain `mk` by hypothesis.  The returned triple
`(f1, f2, G.vertex_values)` is modelled by its data part, the table
`G.vertex_values` (the functions `f1, f2` are `mk`'s output). -/

/-- A Python value that may appear in the key sequence: a `str` (byte
string after `.encode()`) or some other (hashable) object. -/
inductive PyVal where
  | pystr (s : List Nat)
  | pyobj (tag : Nat)
deriving DecidableEq

/-- The dynamically typed `keys` argument of `generate_hash`. -/
inductive PyKeys where
  | pylist (xs : List PyVal)
  | pytuple (xs : List PyVal)
  | pyset (xs : List PyVal)
  | pygenerator (xs : List PyVal)
  | pyother
deriving DecidableEq

/-- The exceptions `generate_hash` can raise. -/
inductive GenError where
  /-- `TypeError("list or tuple expected")` -/
  | typeErrorNotListOrTuple
  /-- `ValueError("duplicate keys")` -/
  | valueErrorDuplicateKeys
  /-- `TypeError("key a not string: %r")` -/
  | typeErrorKeyNotString
  /-- `TooManyInterationsError("%d keys" % NK)`: the payload carries the
  key count. -/
  | tooManyIterations (nkeys : Nat)
deriving DecidableEq

/-- `isinstance(key, str)`. -/
def asStr : PyVal → Option (List Nat)
  | .pystr s => some s
  | .pyobj _ => none

/-- Validation of a list/tuple body: `len(keys) != len(set(keys))`
raises `ValueError`, then each non-`str` key raises `TypeError`. -/
def validateSeq (xs : List PyVal) : Except GenError (List PyVal) :=
  if xs.length ≠ xs.dedup.length then
    .error .valueErrorDuplicateKeys
  else if xs.all (fun x => (asStr x).isSome) then
    .ok xs
  else
    .error .typeErrorKeyNotString

/-- Lines 270-277 of `generate_hash`: the `isinstance(keys, (list,
tuple))` gate, then the duplicate and string checks. -/
def validate (keys : PyKeys) : Except GenError (List PyVal) :=
  match keys with
  | .pylist xs => validateSeq xs
  | .pytuple xs => validateSeq xs
  | _ => .error .typeErrorNotListOrTuple

/-- `NG` growth on every `trials`-th failure: `NG *= 2` in `pow2` mode,
else `NG = max(NG + 1, int(1.05 * NG))`.  Python computes `1.05 * NG`
in floating point; we model the truncation exactly as `21 * NG / 20`. -/
def grow (pow2 : Bool) (NG : Nat) : Nat :=
  if pow2 then NG * 2 else max (NG + 1) (21 * NG / 20)

/-- The `pow2` initial size: `NG = 1; while NG < NK + 1: NG *= 2`.
(The loop is entered with `NG = 1 > 0`; the `0 < NG` guard only makes
the recursion well-founded and is never false on that call.) -/
def pow2loop (target : Nat) : Nat → Nat
  | NG =>
    if h : 0 < NG ∧ NG < target then pow2loop target (NG * 2) else NG
termination_by NG => target - NG
decreasing_by omega

/-- The initial number of graph vertices: `NK + 1`, or in `pow2` mode
the first power of two reached from 1 by doubling while `NG < NK + 1`. -/
def initNG (pow2 : Bool) (NK : Nat) : Nat :=
  if pow2 then pow2loop (NK + 1) 1 else NK + 1

/-- `for hashval, key in enumerate(keys): G.connect(f1(key), f2(key), hashval)`
starting from `Graph(NG)`. -/
def buildGraph (NG : Nat) (keys : List (List Nat)) (f1 f2 : List Nat → Nat) :
    Graph :=
  keys.enum.foldl (fun g p => g.connect (f1 p.2) (f2 p.2) p.1) ⟨NG, []⟩

/-- Per-trial random hash functions: `mk trial NG = (f1, f2)` abstracts
`f1 = Hash(NG); f2 = Hash(NG)` for the trial's two fresh instances. -/
abbrev HashGen := Nat → Nat → ((List Nat → Nat) × (List Nat → Nat))

/-- The global `trials = 50` default (the `--trials` option). -/
def trialsDefault : Nat := 50

/-- The `while True` search loop of `generate_hash`, with fuel.  Each
iteration: on every `T`-th trial (but not the zeroth) grow `NG`; abort
with `TooManyInterationsError` if `NG > 100 * (NK + 1)`; otherwise build
the trial graph and try to assign vertex values, breaking out on
success. -/
def searchLoop (keys : List (List Nat)) (T : Nat) (pow2 : Bool)
    (mk : HashGen) : Nat → Nat → Nat → Option (Except GenError (List Int))
  | 0, _, _ => none
  | fuel + 1, trial, NG =>
    let NK := keys.length
    let NG1 := if trial % T == 0 && decide (0 < trial) then grow pow2 NG else NG
    if 100 * (NK + 1) < NG1 then
      some (.error (.tooManyIterations NK))
    else
      let fs := mk trial NG1
      let g := buildGraph NG1 keys fs.1 fs.2
      match g.assignList with
      | some (true, table) => some (.ok table)
      | _ => searchLoop keys T pow2 mk fuel (trial + 1) NG1

/-- `generate_hash(keys, Hash, pow2)`: validation, then the search loop
from `trial = 0` at the initial size.  `some (.ok table)` is a normal
return with `G.vertex_values = table`; `some (.error e)` is a raised
exception; `none` is exhausted fuel. -/
def generate_hash (keys : PyKeys) (T : Nat) (pow2 : Bool) (mk : HashGen)
    (fuel : Nat) : Option (Except GenError (List Int)) :=
  match validate keys with
  | .error e => some (.error e)
  | .ok xs =>
    let ks := xs.filterMap asStr
    searchLoop ks T pow2 mk fuel 0 (initNG pow2 ks.length)

/-- The sanity-check loop after a successful search (lines 336-339):
`assert hashval == (G[f1(key)] + G[f2(key)]) % NG` for every key. -/
def verifyKeys (keys : List (List Nat)) (f1 f2 : List Nat → Nat) (NG : Nat)
    (table : List Int) : Bool :=
  keys.enum.all
    (fun p => pymod (table.getD (f1 p.2) 0 + table.getD (f2 p.2) 0) NG == (p.1 : Int))

/-! ## The `pow2` modulus-to-mask rewrite of `generate_code`

Line 425-426: `res = res.replace("%% %d" % len(G), "& %d" % (len(G)-1))`.
We model strings as `List Char`, `"%d"` formatting as `natChars`, and
`str.replace` (replace every non-overlapping occurrence, left to right)
as `replaceAll`. -/

/-- Decimal digits of `n`, as `"%d" % n` renders them. -/
def natChars (n : Nat) : List Char :=
  if h : n < 10 then [Nat.digitChar n]
  else natChars (n / 10) ++ [Nat.digitChar (n % 10)]
termination_by n
decreasing_by exact Nat.div_lt_self (by omega) (by omega)

/-- Python `s.replace(pat, repl)`: replace every non-overlapping
occurrence of `pat`, scanning left to right. -/
def replaceAll (pat repl : List Char) : List Char → List Char
  | [] => []
  | c :: cs =>
    if h : pat ≠ [] ∧ pat.isPrefixOf (c :: cs) then
      repl ++ replaceAll pat repl ((c :: cs).drop pat.length)
    else
      c :: replaceAll pat repl cs
termination_by s => s.length
decreasing_by
  · simp only [List.length_drop, List.length_cons]
    have : pat.length ≠ 0 := by
      intro h0
      exact h.1 (List.length_eq_zero.mp h0)
    omega
  · simp

/-- The modulus literal `"% NG"` the rewrite targets. -/
def modPat (NG : Nat) : List Char := '%' :: ' ' :: natChars NG

/-- Its replacement `"& NG-1"`. -/
def maskRepl (NG : Nat) : List Char := '&' :: ' ' :: natChars (NG - 1)

/-- The `pow2` rewrite applied to the substituted template text. -/
def pow2Rewrite (res : List Char) (NG : Nat) : List Char :=
  replaceAll (modPat NG) (maskRepl NG) res

/-! ## Auxiliary notions used by the proofs -/

/-- Pure predicate: would the neighbour scan of `scan` execute
`return False`?  Mirrors `scan`'s control flow without the state. -/
def scanFalses (visited : Visited) (parent : Option Nat) :
    List (Nat × Nat) → Bool → Bool
  | [], _ => false
  | (x, _) :: rest, skip =>
    if skip && (some x == parent) then scanFalses visited parent rest false
    else if visited x then true
    else scanFalses visited parent rest skip

/-- Popping `(parent, v)` in the given visited state is bound to make
`assign_vertex_values` return `False` (the scan after marking `v`
reaches a visited, non-skipped neighbour). -/
def Falsy (g : Graph) (visited : Visited) (v : Nat) (parent : Option Nat) : Prop :=
  scanFalses (updF visited v true) parent (g.adjacent v) true = true

/-- Number of visited vertices below `N`. -/
def countVisited (N : Nat) (visited : Visited) : Nat :=
  ((List.range N).filter (fun v => visited v)).length

/-- Soundness on the visited part: every edge between two visited
vertices already satisfies the modular-sum constraint. -/
def edgesOK (g : Graph) (visited : Visited) (vv : VV) : Prop :=
  ∀ a b e, (a, b, e) ∈ g.edges → visited a = true → visited b = true →
    (vv a + vv b) ≡ (e : Int) [ZMOD (g.N : Int)]

/-- The invariant of the `while tovisit` loop of
`assign_vertex_values`. -/
structure Inv (g : Graph) (stack : List StackEntry) (visited : Visited)
    (vv : VV) : Prop where
  /-- Edges between visited vertices are satisfied. -/
  edges_ok : edgesOK g visited vv
  /-- No endpoint of a self-loop is visited (visiting one returns
  `False` at once). -/
  no_self : ∀ v e, (v, v, e) ∈ g.edges → visited v = false
  /-- Stack vertices are in range. -/
  wf_stack : ∀ pr ∈ stack, pr.2 < g.N
  /-- Parents on the stack are visited. -/
  parents_visited : ∀ p v, (some p, v) ∈ stack → visited p = true
  /-- A stacked child is adjacent to its parent. -/
  parent_adj : ∀ p v, (some p, v) ∈ stack → ∃ e, (p, e) ∈ g.adjacent v
  /-- An unvisited stacked child either is doomed to fail its scan, or
  has a unique parent edge whose constraint its value already meets. -/
  entry_ok : ∀ p v, (some p, v) ∈ stack → visited v = false →
    Falsy g visited v (some p) ∨
    ∃ e, (p, e) ∈ g.adjacent v ∧
      (g.adjacent v).countP (fun q => q.1 = p) = 1 ∧
      (vv v + vv p) ≡ (e : Int) [ZMOD (g.N : Int)]
  /-- Re-popping an already visited vertex fails its scan. -/
  falsy_revisit : ∀ p v, (some p, v) ∈ stack → visited v = true →
    Falsy g visited v (some p)
  /-- Duplicated stack entries fail their scan when first popped. -/
  dup_falsy : ∀ p v, 2 ≤ stack.count (some p, v) → Falsy g visited v (some p)
  /-- A root entry only ever sits alone on the stack, unvisited. -/
  none_entries : ∀ v, (none, v) ∈ stack → stack = [(none, v)] ∧ visited v = false
  /-- Stacked vertices already have a (non-sentinel) value. -/
  stack_assigned : ∀ pr ∈ stack, 0 ≤ vv pr.2
  /-- Visited vertices have a (non-sentinel) value. -/
  visited_assigned : ∀ x, visited x = true → 0 ≤ vv x

/-- Well-formed graph: all edge endpoints are genuine vertices. -/
def Graph.WF (g : Graph) : Prop :=
  ∀ a b e, (a, b, e) ∈ g.edges → a < g.N ∧ b < g.N

/-- `pat` occurs (as a contiguous sublist) in `s`. -/
def occursIn (pat s : List Char) : Prop :=
  ∃ pre suf, s = pre ++ pat ++ suf

/-- `n` is a power of two. -/
def isPow2 (n : Nat) : Prop :=
  ∃ k, n = 2 ^ k

/-! # Proof development -/

/-! ## Store updates -/

theorem updF_same {α : Type} (f : Nat → α) (i : Nat) (x : α) :
    updF f i x i = x := by
  simp [updF]

theorem updF_other {α : Type} (f : Nat → α) (i j : Nat) (x : α) (h : j ≠ i) :
    updF f i x j = f j := by
  simp [updF, h]

/-! ## Adjacency lists -/

theorem adjacent_nil (N v : Nat) : Graph.adjacent ⟨N, []⟩ v = [] := rfl

theorem adjacent_cons (N v a b e : Nat) (t : List (Nat × Nat × Nat)) :
    Graph.adjacent ⟨N, (a, b, e) :: t⟩ v =
      (if a = v then [(b, e)] else []) ++ (if b = v then [(a, e)] else []) ++
        Graph.adjacent ⟨N, t⟩ v := rfl

/-- Membership in the adjacency list is membership of an edge with the
matching orientation. -/
theorem mem_adjacent_iff (g : Graph) (v x e : Nat) :
    (x, e) ∈ g.adjacent v ↔ (v, x, e) ∈ g.edges ∨ (x, v, e) ∈ g.edges := by
  obtain ⟨N, l⟩ := g
  induction l with
  | nil => simp [adjacent_nil]
  | cons hd t ih =>
    obtain ⟨a, b, eh⟩ := hd
    rw [adjacent_cons]
    simp only [List.mem_append, List.mem_cons, ih]
    by_cases hav : a = v <;> by_cases hbv : b = v <;>
      simp_all [Prod.ext_iff] <;> tauto

/-- The number of `x`-entries of `adjacent v` equals the number of
`v`-entries of `adjacent x` (each edge contributes symmetrically). -/
theorem countP_adjacent_symm (g : Graph) (v x : Nat) :
    (g.adjacent v).countP (fun q => q.1 = x) =
      (g.adjacent x).countP (fun q => q.1 = v) := by
  obtain ⟨N, l⟩ := g
  induction l with
  | nil => simp [adjacent_nil]
  | cons hd t ih =>
    obtain ⟨a, b, eh⟩ := hd
    rw [adjacent_cons, adjacent_cons]
    simp only [List.countP_append, ih]
    congr 1
    by_cases hav : a = v <;> by_cases hbv : b = v <;>
      by_cases hax : a = x <;> by_cases hbx : b = x <;>
      simp_all [List.countP_cons] <;> omega

/-- Two distinct members both satisfying a predicate force a `countP`
of at least two. -/
theorem two_le_countP {α : Type} {l : List α} {a b : α} {p : α → Bool}
    (hne : a ≠ b) (ha : a ∈ l) (hb : b ∈ l) (hpa : p a = true)
    (hpb : p b = true) : 2 ≤ l.countP p := by
  induction l with
  | nil => cases ha
  | cons hd t ih =>
    rw [List.countP_cons]
    rcases List.mem_cons.mp ha with rfl | hat
    · have hbt : b ∈ t := by
        rcases List.mem_cons.mp hb with rfl | h
        · exact absurd rfl hne
        · exact h
      have : 0 < t.countP p := List.countP_pos.mpr ⟨b, hbt, hpb⟩
      rw [if_pos hpa]
      omega
    · rcases List.mem_cons.mp hb with rfl | hbt
      · have : 0 < t.countP p := List.countP_pos.mpr ⟨a, hat, hpa⟩
        rw [if_pos hpb]
        omega
      · have := ih hat hbt
        omega

/-- A member of a list whose first component is counted once is unique
among entries with that first component. -/
theorem countP_one_unique {l : List (Nat × Nat)} {p e er : Nat}
    (hc : l.countP (fun q => q.1 = p) = 1)
    (h1 : (p, e) ∈ l) (h2 : (p, er) ∈ l) : e = er := by
  by_contra hne
  have h2le : 2 ≤ l.countP (fun q => q.1 = p) :=
    two_le_countP (by simp [hne]) h1 h2 (by simp) (by simp)
  omega

/-! ## The neighbour scan: failure predicate -/

theorem scan_none_iff (N vtx : Nat) (parent : Option Nat) :
    ∀ (l : List (Nat × Nat)) (skip : Bool) (visited : Visited) (vv : VV)
      (acc : List StackEntry),
      (scan N vtx parent l skip visited vv acc).2 = none ↔
        scanFalses visited parent l skip = true := by
  intro l
  induction l with
  | nil =>
    intro skip visited vv acc
    simp [scan, scanFalses]
  | cons hd rest ih =>
    intro skip visited vv acc
    obtain ⟨nb, e⟩ := hd
    by_cases hs : (skip && (some nb == parent)) = true
    · rw [show scan N vtx parent ((nb, e) :: rest) skip visited vv acc =
          scan N vtx parent rest false visited vv acc by simp [scan, hs],
        show scanFalses visited parent ((nb, e) :: rest) skip =
          scanFalses visited parent rest false by simp [scanFalses, hs]]
      exact ih false visited vv acc
    · by_cases hv : visited nb = true
      · rw [show scan N vtx parent ((nb, e) :: rest) skip visited vv acc =
            (vv, none) by simp [scan, hs, hv],
          show scanFalses visited parent ((nb, e) :: rest) skip = true by
            simp [scanFalses, hs, hv]]
        simp
      · rw [show scan N vtx parent ((nb, e) :: rest) skip visited vv acc =
            scan N vtx parent rest skip visited
              (updF vv nb (pymod ((e : Int) - vv vtx) N))
              ((some vtx, nb) :: acc) by simp [scan, hs, hv],
          show scanFalses visited parent ((nb, e) :: rest) skip =
            scanFalses visited parent rest skip by simp [scanFalses, hs, hv]]
        exact ih skip visited _ _

theorem scanFalses_mono {visited visited' : Visited} {parent : Option Nat}
    (hmono : ∀ y, visited y = true → visited' y = true) :
    ∀ (l : List (Nat × Nat)) (skip : Bool),
      scanFalses visited parent l skip = true →
      scanFalses visited' parent l skip = true := by
  intro l
  induction l with
  | nil => intro skip h; simpa [scanFalses] using h
  | cons hd rest ih =>
    intro skip h
    obtain ⟨nb, e⟩ := hd
    by_cases hs : (skip && (some nb == parent)) = true
    · rw [show scanFalses visited parent ((nb, e) :: rest) skip =
          scanFalses visited parent rest false by simp [scanFalses, hs]] at h
      rw [show scanFalses visited' parent ((nb, e) :: rest) skip =
          scanFalses visited' parent rest false by simp [scanFalses, hs]]
      exact ih false h
    · by_cases hv' : visited' nb = true
      · simp [scanFalses, hs, hv']
      · have hv2 : visited' nb = false := by simpa using hv'
        have hv : visited nb = false := by
          by_contra hc
          exact hv' (hmono nb (by simpa using hc))
        rw [show scanFalses visited parent ((nb, e) :: rest) skip =
            scanFalses visited parent rest skip by simp [scanFalses, hs, hv]] at h
        rw [show scanFalses visited' parent ((nb, e) :: rest) skip =
            scanFalses visited' parent rest skip by simp [scanFalses, hs, hv2]]
        exact ih skip h

/-- An entry for a visited vertex other than the parent makes the scan
fail (it is never skipped). -/
theorem scanFalses_of_mem_ne {visited : Visited} {parent : Option Nat}
    {y e : Nat} {l : List (Nat × Nat)} (hmem : (y, e) ∈ l)
    (hvis : visited y = true) (hne : some y ≠ parent) :
    ∀ skip, scanFalses visited parent l skip = true := by
  induction l with
  | nil => cases hmem
  | cons hd rest ih =>
    intro skip
    obtain ⟨nb, eh⟩ := hd
    rcases List.mem_cons.mp hmem with hh | ht
    · obtain ⟨rfl, rfl⟩ := Prod.mk.injEq .. ▸ hh
      have : (some y == parent) = false := by
        cases parent <;> simp_all
      simp [scanFalses, this, hvis]
    · by_cases hs : (skip && (some nb == parent)) = true
      · rw [show scanFalses visited parent ((nb, eh) :: rest) skip =
            scanFalses visited parent rest false by simp [scanFalses, hs]]
        exact ih ht false
      · by_cases hv : visited nb = true
        · simp [scanFalses, hs, hv]
        · rw [show scanFalses visited parent ((nb, eh) :: rest) skip =
              scanFalses visited parent rest skip by simp [scanFalses, hs, hv]]
          exact ih ht skip

/-- With the skip already consumed, any visited entry fails the scan. -/
theorem scanFalses_of_mem_noskip {visited : Visited} {parent : Option Nat}
    {y e : Nat} {l : List (Nat × Nat)} (hmem : (y, e) ∈ l)
    (hvis : visited y = true) :
    scanFalses visited parent l false = true := by
  induction l with
  | nil => cases hmem
  | cons hd rest ih =>
    obtain ⟨nb, eh⟩ := hd
    rcases List.mem_cons.mp hmem with hh | ht
    · obtain ⟨rfl, rfl⟩ := Prod.mk.injEq .. ▸ hh
      simp [scanFalses, hvis]
    · by_cases hv : visited nb = true
      · simp [scanFalses, hv]
      · rw [show scanFalses visited parent ((nb, eh) :: rest) false =
            scanFalses visited parent rest false by simp [scanFalses, hv]]
        exact ih ht

/-- Two entries for a visited vertex fail the scan even when that
vertex is the parent: the skip absorbs only one of them. -/
theorem scanFalses_of_two {visited : Visited} {y : Nat}
    {l : List (Nat × Nat)} (hc : 2 ≤ l.countP (fun q => q.1 = y))
    (hvis : visited y = true) :
    ∀ (parent : Option Nat), scanFalses visited parent l true = true := by
  induction l with
  | nil => simp [List.countP_nil] at hc
  | cons hd rest ih =>
    intro parent
    obtain ⟨nb, eh⟩ := hd
    by_cases hs : ((true : Bool) && (some nb == parent)) = true
    · rw [show scanFalses visited parent ((nb, eh) :: rest) true =
          scanFalses visited parent rest false by simp [scanFalses, hs]]
      have hrest : 0 < rest.countP (fun q => q.1 = y) := by
        rw [List.countP_cons] at hc
        by_cases hz : 0 < rest.countP (fun q => q.1 = y)
        · exact hz
        · exfalso
          simp only [Nat.not_lt, Nat.le_zero] at hz
          rw [hz] at hc
          split at hc <;> omega
      obtain ⟨q, hq, hq2⟩ := List.countP_pos.mp hrest
      obtain ⟨q1, q2⟩ := q
      simp only [decide_eq_true_eq] at hq2
      have hq' : (y, q2) ∈ rest := hq2 ▸ hq
      exact scanFalses_of_mem_noskip hq' hvis
    · by_cases hv : visited nb = true
      · simp [scanFalses, hs, hv]
      · have hy : nb ≠ y := fun h => (h ▸ hv) hvis
        have hrest : 2 ≤ rest.countP (fun q => q.1 = y) := by
          rw [List.countP_cons] at hc
          simp [hy] at hc
          omega
        rw [show scanFalses visited parent ((nb, eh) :: rest) true =
            scanFalses visited parent rest true by simp [scanFalses, hs, hv]]
        exact ih hrest parent

/-- Full specification of a neighbour scan that did not return `False`:
the pushed entries, the value updates, and the shape of the scanned
entries.  `news` are the entries this scan pushed (topmost first). -/
theorem scan_spec (N vtx : Nat) (parent : Option Nat) (visited : Visited)
    (hParent : ∀ p, parent = some p → visited p = true)
    (hVtx : visited vtx = true) :
    ∀ (l : List (Nat × Nat)) (skip : Bool) (vv : VV) (acc : List StackEntry)
      (vv' : VV) (pushes : List StackEntry),
      scan N vtx parent l skip visited vv acc = (vv', some pushes) →
      ∃ news : List StackEntry,
        pushes = news ++ acc ∧
        (∀ pr ∈ news, pr.1 = some vtx ∧ visited pr.2 = false) ∧
        (∀ pr ∈ news, ∃ e : Nat, (pr.2, e) ∈ l ∧
          vv' pr.2 = pymod ((e : Int) - vv vtx) N) ∧
        (∀ y, visited y = true → vv' y = vv y) ∧
        (∀ y, news.countP (fun pr => pr.2 = y) = 0 → vv' y = vv y) ∧
        (∀ y e2, l.countP (fun q => q.1 = y) ≤ 1 → (y, e2) ∈ l →
          0 < news.countP (fun pr => pr.2 = y) →
          vv' y = pymod ((e2 : Int) - vv vtx) N) ∧
        (∀ x e2, (x, e2) ∈ l → visited x = true →
          skip = true ∧ parent = some x) ∧
        (∀ x e2, (x, e2) ∈ l → visited x = false →
          0 < news.countP (fun pr => pr.2 = x)) ∧
        (∀ y, news.countP (fun pr => pr.2 = y) ≤
          l.countP (fun q => q.1 = y)) := by
  intro l
  induction l with
  | nil =>
    intro skip vv acc vv2 pushes h
    simp only [scan, Prod.mk.injEq] at h
    obtain ⟨rfl, h2⟩ := h
    refine ⟨[], by simpa using h2.symm, by simp, by simp, fun y _ => rfl,
      fun y _ => rfl, by simp, by simp, by simp, by simp⟩
  | cons hd rest ih =>
    intro skip vv acc vv2 pushes h
    obtain ⟨nb, e⟩ := hd
    by_cases hcond : (skip && (some nb == parent)) = true
    · rw [show scan N vtx parent ((nb, e) :: rest) skip visited vv acc =
          scan N vtx parent rest false visited vv acc by
            simp [scan, hcond]] at h
      obtain ⟨hskip, hpar0⟩ : skip = true ∧ some nb = parent := by
        simpa using hcond
      have hpar : parent = some nb := hpar0.symm
      have hvisnb : visited nb = true := hParent nb hpar
      obtain ⟨news, k1, k2, k3, k4, k5, k6, k7, k8, k9⟩ := ih false vv acc vv2 pushes h
      refine ⟨news, k1, k2, ?_, k4, k5, ?_, ?_, ?_, ?_⟩
      · intro pr hpr
        obtain ⟨e2, hm, hv⟩ := k3 pr hpr
        exact ⟨e2, List.mem_cons_of_mem _ hm, hv⟩
      · intro y e2 hcount hmem hpos
        by_cases hy : y = nb
        · exfalso
          obtain ⟨pr, hpr, hpr2⟩ := List.countP_pos.mp hpos
          have := (k2 pr hpr).2
          simp only [decide_eq_true_eq] at hpr2
          rw [hpr2, hy] at this
          rw [this] at hvisnb
          cases hvisnb
        · rcases List.mem_cons.mp hmem with hh | ht
          · exact absurd (Prod.mk.injEq .. ▸ hh).1 hy
          · refine k6 y e2 ?_ ht hpos
            have : rest.countP (fun q => q.1 = y) ≤
                ((nb, e) :: rest).countP (fun q => q.1 = y) := by
              rw [List.countP_cons]
              omega
            omega
      · intro x e2 hmem hvis
        rcases List.mem_cons.mp hmem with hh | ht
        · obtain ⟨rfl, rfl⟩ := Prod.mk.injEq .. ▸ hh
          exact ⟨hskip, hpar⟩
        · cases (k7 x e2 ht hvis).1
      · intro x e2 hmem hvis
        rcases List.mem_cons.mp hmem with hh | ht
        · obtain ⟨rfl, rfl⟩ := Prod.mk.injEq .. ▸ hh
          rw [hvis] at hvisnb
          cases hvisnb
        · exact k8 x e2 ht hvis
      · intro y
        have := k9 y
        rw [List.countP_cons]
        omega
    · by_cases hv : visited nb = true
      · exfalso
        rw [show scan N vtx parent ((nb, e) :: rest) skip visited vv acc =
            (vv, none) by simp [scan, hcond, hv]] at h
        simp at h
      · rw [show scan N vtx parent ((nb, e) :: rest) skip visited vv acc =
            scan N vtx parent rest skip visited
              (updF vv nb (pymod ((e : Int) - vv vtx) N))
              ((some vtx, nb) :: acc) by simp [scan, hcond, hv]] at h
        have hvfalse : visited nb = false := by simpa using hv
        have hnbvtx : vtx ≠ nb := by
          intro hx
          rw [← hx] at hvfalse
          rw [hvfalse] at hVtx
          cases hVtx
        have hvv1vtx : (updF vv nb (pymod ((e : Int) - vv vtx) N)) vtx = vv vtx :=
          updF_other vv nb vtx _ hnbvtx
        obtain ⟨news1, k1, k2, k3, k4, k5, k6, k7, k8, k9⟩ :=
          ih skip (updF vv nb (pymod ((e : Int) - vv vtx) N))
            ((some vtx, nb) :: acc) vv2 pushes h
        refine ⟨news1 ++ [(some vtx, nb)], ?_, ?_, ?_, ?_, ?_, ?_, ?_, ?_, ?_⟩
        · rw [k1]
          simp
        · intro pr hpr
          rcases List.mem_append.mp hpr with hp1 | hp2
          · exact k2 pr hp1
          · obtain rfl := List.mem_singleton.mp hp2
            exact ⟨rfl, hvfalse⟩
        · intro pr hpr
          rcases List.mem_append.mp hpr with hp1 | hp2
          · obtain ⟨e2, hm, hval⟩ := k3 pr hp1
            rw [hvv1vtx] at hval
            exact ⟨e2, List.mem_cons_of_mem _ hm, hval⟩
          · obtain rfl := List.mem_singleton.mp hp2
            by_cases hnb1 : news1.countP (fun pr => pr.2 = nb) = 0
            · have hval := k5 nb hnb1
              rw [updF_same] at hval
              exact ⟨e, List.mem_cons_self .., hval⟩
            · obtain ⟨pr1, hpr1, hpr12⟩ :=
                List.countP_pos.mp (Nat.pos_of_ne_zero hnb1)
              obtain ⟨e2, hm, hval⟩ := k3 pr1 hpr1
              simp only [decide_eq_true_eq] at hpr12
              rw [hpr12] at hm hval
              rw [hvv1vtx] at hval
              exact ⟨e2, List.mem_cons_of_mem _ hm, hval⟩
        · intro y hy
          have hne : y ≠ nb := by
            intro hx
            rw [hx, hvfalse] at hy
            cases hy
          rw [k4 y hy, updF_other vv nb y _ hne]
        · intro y hy
          rw [List.countP_append, List.countP_cons, List.countP_nil] at hy
          by_cases hyn : nb = y
          · exfalso
            rw [if_pos (by simp [hyn])] at hy
            omega
          · rw [if_neg (by simp [hyn])] at hy
            have h1 : news1.countP (fun pr => pr.2 = y) = 0 := by omega
            rw [k5 y h1, updF_other vv nb y _ (fun hx => hyn hx.symm)]
        · intro y e2 hcount hmem hpos
          by_cases hy : y = nb
          · subst hy
            have hpos1 : 0 < ((y, e) :: rest).countP (fun q => q.1 = y) :=
              List.countP_pos.mpr ⟨(y, e), List.mem_cons_self .., by simp⟩
            have hc1 : ((y, e) :: rest).countP (fun q => q.1 = y) = 1 :=
              Nat.le_antisymm hcount hpos1
            have he2 : e2 = e :=
              countP_one_unique hc1 hmem (List.mem_cons_self ..)
            have hrest0 : rest.countP (fun q => q.1 = y) = 0 := by
              rw [List.countP_cons, if_pos (by simp)] at hc1
              omega
            have hnews10 : news1.countP (fun pr => pr.2 = y) = 0 := by
              have := k9 y
              omega
            rw [k5 y hnews10, updF_same, he2]
          · have hmemr : (y, e2) ∈ rest := by
              rcases List.mem_cons.mp hmem with hh | ht
              · exact absurd (Prod.mk.injEq .. ▸ hh).1 hy
              · exact ht
            have hcr : rest.countP (fun q => q.1 = y) ≤ 1 := by
              rw [List.countP_cons] at hcount
              omega
            have hposr : 0 < news1.countP (fun pr => pr.2 = y) := by
              rw [List.countP_append, List.countP_cons, List.countP_nil,
                if_neg (by simp [Ne.symm hy])] at hpos
              omega
            have hval := k6 y e2 hcr hmemr hposr
            rw [hvv1vtx] at hval
            exact hval
        · intro x e2 hmem hvis
          rcases List.mem_cons.mp hmem with hh | ht
          · obtain ⟨rfl, rfl⟩ := Prod.mk.injEq .. ▸ hh
            rw [hvis] at hvfalse
            cases hvfalse
          · exact k7 x e2 ht hvis
        · intro x e2 hmem hvis
          rw [List.countP_append, List.countP_singleton]
          rcases List.mem_cons.mp hmem with hh | ht
          · obtain ⟨rfl, rfl⟩ := Prod.mk.injEq .. ▸ hh
            simp
          · have := k8 x e2 ht hvis
            omega
        · intro y
          rw [List.countP_append, List.countP_singleton, List.countP_cons]
          have := k9 y
          by_cases hy : nb = y
          · subst hy
            simp
            omega
          · have : (decide ((nb, e).1 = y)) = false := by simp [hy]
            simp [hy]
            omega

/-! ## Auxiliary facts for the DFS loop invariant -/

theorem mem_adjacent_symm {g : Graph} {v x e : Nat}
    (h : (x, e) ∈ g.adjacent v) : (v, e) ∈ g.adjacent x := by
  rw [mem_adjacent_iff] at h ⊢
  tauto

theorem adjacent_lt_of_WF {g : Graph} (hWF : g.WF) {v x e : Nat}
    (h : (x, e) ∈ g.adjacent v) : x < g.N ∧ v < g.N := by
  rw [mem_adjacent_iff] at h
  rcases h with h | h
  · exact ⟨(hWF _ _ _ h).2, (hWF _ _ _ h).1⟩
  · exact ⟨(hWF _ _ _ h).1, (hWF _ _ _ h).2⟩

theorem updF_visited_mono (visited : Visited) (v y : Nat)
    (h : visited y = true) : updF visited v true y = true := by
  by_cases hy : y = v <;> simp [updF, hy, h]

theorem updF_updF_self (visited : Visited) (v : Nat) :
    updF (updF visited v true) v true = updF visited v true := by
  funext j
  by_cases hj : j = v <;> simp [updF, hj]

theorem Falsy_mono {g : Graph} {visited visited' : Visited} {x : Nat}
    {parent : Option Nat}
    (hmono : ∀ y, visited y = true → visited' y = true)
    (h : Falsy g visited x parent) : Falsy g visited' x parent := by
  unfold Falsy at h ⊢
  refine scanFalses_mono ?_ _ _ h
  intro y hy
  by_cases hyx : y = x
  · simp [updF, hyx]
  · rw [updF_other _ _ _ _ hyx] at hy
    rw [updF_other _ _ _ _ hyx]
    exact hmono y hy

theorem filter_updF_len {v : Nat} {visited : Visited} :
    ∀ l : List Nat, l.Nodup → v ∈ l → visited v = false →
      (l.filter (fun x => updF visited v true x)).length =
        (l.filter (fun x => visited x)).length + 1 := by
  intro l
  induction l with
  | nil => intro _ hm; cases hm
  | cons a t ih =>
    intro hnd hm hv
    rcases List.mem_cons.mp hm with rfl | hmt
    · have hvt : v ∉ t := (List.nodup_cons.mp hnd).1
      have hft : t.filter (fun x => updF visited v true x) =
          t.filter (fun x => visited x) := by
        refine List.filter_congr ?_
        intro x hx
        have : x ≠ v := fun h => hvt (h ▸ hx)
        simp [updF, this]
      rw [List.filter_cons, List.filter_cons]
      rw [if_pos (by simp [updF]), if_neg (by simp [hv])]
      simp [hft]
    · have hav : a ≠ v := by
        intro h
        exact absurd (h ▸ hmt) (List.nodup_cons.mp hnd).1
      have iht := ih (List.nodup_cons.mp hnd).2 hmt hv
      rw [List.filter_cons, List.filter_cons]
      by_cases ha : visited a = true
      · rw [if_pos (by simp [updF, hav, ha]), if_pos (by simp [ha])]
        simp [iht]
      · rw [if_neg (by simp [updF, hav]; simpa using ha),
          if_neg (by simpa using ha)]
        exact iht

theorem countVisited_le (N : Nat) (visited : Visited) :
    countVisited N visited ≤ N := by
  unfold countVisited
  calc ((List.range N).filter (fun v => visited v)).length
      ≤ (List.range N).length := List.length_filter_le _ _
    _ = N := List.length_range N

theorem countVisited_mark {N v : Nat} (hv : v < N) {visited : Visited}
    (h : visited v = false) :
    countVisited N (updF visited v true) = countVisited N visited + 1 := by
  unfold countVisited
  exact filter_updF_len _ (List.nodup_range N) (List.mem_range.mpr hv) h

/-- Master lemma for the `while tovisit` loop: under the invariant and
with enough fuel the loop always returns, and when it drains the stack
normally the invariant persists, visitedness only grows, and every
stacked vertex has been visited. -/
theorem dfsLoop_sound (g : Graph) (hWF : g.WF) :
    ∀ (fuel : Nat) (stack : List StackEntry) (visited : Visited) (vv : VV),
      Inv g stack visited vv →
      g.N + 1 ≤ fuel + countVisited g.N visited →
      ∃ r, dfsLoop g fuel stack visited vv = some r ∧
        ∀ visited2 vv2, r = .done visited2 vv2 →
          Inv g [] visited2 vv2 ∧
          (∀ y, visited y = true → visited2 y = true) ∧
          (∀ pr ∈ stack, visited2 pr.2 = true) := by
  intro fuel
  induction fuel with
  | zero =>
    intro stack visited vv inv hfuel
    have := countVisited_le g.N visited
    omega
  | succ fuel ih =>
    intro stack visited vv inv hfuel
    match stack with
    | [] =>
      refine ⟨.done visited vv, rfl, ?_⟩
      intro visited2 vv2 hr
      cases hr
      exact ⟨inv, fun y hy => hy, by simp⟩
    | (q?, v) :: rest =>
      have hheadmem : ((q?, v) : StackEntry) ∈ (q?, v) :: rest :=
        List.mem_cons_self ..
      have hvN : v < g.N := inv.wf_stack _ hheadmem
      have hN0 : 0 < g.N := by omega
      cases hscan : scan g.N v q? (g.adjacent v) true (updF visited v true) vv []
        with
      | mk vv1 pushOpt =>
        cases pushOpt with
        | none =>
          refine ⟨.falsed vv1, ?_, ?_⟩
          · show dfsLoop g (fuel + 1) ((q?, v) :: rest) visited vv =
              some (.falsed vv1)
            simp only [dfsLoop]
            rw [hscan]
          · intro visited2 vv2 hr
            cases hr
        | some pushes =>
          -- the popped vertex is fresh, else the invariant makes the scan fail
          have hvfresh : visited v = false := by
            by_contra hc
            have hvt : visited v = true := by simpa using hc
            have hfals : scanFalses (updF visited v true) q? (g.adjacent v)
                true = true := by
              cases q? with
              | none =>
                obtain ⟨_, hnv⟩ := inv.none_entries v hheadmem
                rw [hnv] at hvt
                cases hvt
              | some q => exact inv.falsy_revisit q v hheadmem hvt
            have hnone := (scan_none_iff g.N v q? (g.adjacent v) true
              (updF visited v true) vv []).mpr hfals
            rw [hscan] at hnone
            simp at hnone
          have hParent1 : ∀ p, q? = some p → updF visited v true p = true := by
            intro p hp
            refine updF_visited_mono _ _ _ ?_
            refine inv.parents_visited p v ?_
            rw [← hp]
            exact hheadmem
          obtain ⟨news, hc1, hc2, hc3, hc4, hc5, hc6, hc7, hc8, hc9⟩ :=
            scan_spec g.N v q? (updF visited v true) hParent1 (updF_same ..)
              (g.adjacent v) true vv [] vv1 pushes hscan
          have hpushes : pushes = news := by simpa using hc1
          rw [hpushes] at hscan
          -- general consequences of the scan specification
          have hvv1v : vv1 v = vv v := hc4 v (updF_same ..)
          have hvv1_old : ∀ y, visited y = true → vv1 y = vv y := fun y hy =>
            hc4 y (updF_visited_mono _ _ _ hy)
          have hnews_fresh : ∀ pr ∈ news, pr.2 ≠ v ∧ visited pr.2 = false := by
            intro pr hpr
            have h2 := (hc2 pr hpr).2
            constructor
            · intro hx
              rw [hx, updF_same] at h2
              cases h2
            · by_cases hx : pr.2 = v
              · rw [hx, updF_same] at h2
                cases h2
              · rwa [updF_other _ _ _ _ hx] at h2
          have hNoSelfAdj : ∀ e, (v, e) ∈ g.adjacent v → False := by
            intro e hmem
            have h7 := (hc7 v e hmem (updF_same ..)).2
            cases hq : q? with
            | none => rw [hq] at h7; cases h7
            | some q =>
              rw [hq] at h7
              have hqv : q = v := Option.some.inj h7
              have := inv.parents_visited q v (hq ▸ hheadmem)
              rw [hqv, hvfresh] at this
              cases this
          -- the popped entry is not duplicated deeper in the stack
          have hNoDup : ∀ p, q? = some p → ((some p, v) : StackEntry) ∉ rest := by
            intro p hp hmem
            have h0 : 0 < rest.count ((some p, v) : StackEntry) :=
              List.count_pos_iff_mem.mpr hmem
            have hcount : 2 ≤ ((q?, v) :: rest).count ((some p, v) : StackEntry) := by
              have hcc : (((q?, v) :: rest).count ((some p, v) : StackEntry)) =
                  rest.count ((some p, v) : StackEntry) + 1 := by
                rw [hp]
                simp [List.count_cons]
              omega
            have hfals := inv.dup_falsy p v hcount
            have hnone := (scan_none_iff g.N v q? (g.adjacent v) true
              (updF visited v true) vv []).mpr (hp ▸ hfals)
            rw [hscan] at hnone
            simp at hnone
          -- the head entry satisfied constraint (when it has a parent):
          -- from entry_ok, since the scan did not fail
          have hNotFalsy : scanFalses (updF visited v true) q? (g.adjacent v)
              true = false := by
            by_cases hf : scanFalses (updF visited v true) q? (g.adjacent v)
                true = true
            · have hnone := (scan_none_iff g.N v q? (g.adjacent v) true
                (updF visited v true) vv []).mpr hf
              rw [hscan] at hnone
              simp at hnone
            · simpa using hf
          have hHeadPkg : ∀ p, q? = some p →
              ∃ e0, (p, e0) ∈ g.adjacent v ∧
                (g.adjacent v).countP (fun q => q.1 = p) = 1 ∧
                (vv v + vv p) ≡ (e0 : Int) [ZMOD (g.N : Int)] := by
            intro p hp
            have := inv.entry_ok p v (hp ▸ hheadmem) hvfresh
            rcases this with hfals | hpkg
            · exfalso
              unfold Falsy at hfals
              rw [hp] at hNotFalsy
              rw [hfals] at hNotFalsy
              cases hNotFalsy
            · exact hpkg
          -- the new invariant
          have inv' : Inv g (news ++ rest) (updF visited v true) vv1 := by
            refine ⟨?_, ?_, ?_, ?_, ?_, ?_, ?_, ?_, ?_, ?_, ?_⟩
            · -- edges_ok
              intro a b e hedge hva hvb
              by_cases hav : a = v <;> by_cases hbv : b = v
              · exfalso
                rw [hav, hbv] at hedge
                exact hNoSelfAdj e ((mem_adjacent_iff g v v e).mpr (Or.inl hedge))
              · rw [hav] at hedge ⊢
                have hvb' : visited b = true := by
                  rwa [updF_other _ _ _ _ hbv] at hvb
                have hmem : (b, e) ∈ g.adjacent v :=
                  (mem_adjacent_iff g v b e).mpr (Or.inl hedge)
                have h7 := (hc7 b e hmem hvb).2
                obtain ⟨e0, he0, hcnt, heq⟩ := hHeadPkg b h7
                have he : e = e0 := countP_one_unique hcnt hmem he0
                rw [hvv1v, hvv1_old b hvb']
                rw [he]
                exact heq
              · rw [hbv] at hedge ⊢
                have hva' : visited a = true := by
                  rwa [updF_other _ _ _ _ hav] at hva
                have hmem : (a, e) ∈ g.adjacent v :=
                  (mem_adjacent_iff g v a e).mpr (Or.inr hedge)
                have h7 := (hc7 a e hmem hva).2
                obtain ⟨e0, he0, hcnt, heq⟩ := hHeadPkg a h7
                have he : e = e0 := countP_one_unique hcnt hmem he0
                rw [hvv1v, hvv1_old a hva']
                rw [he]
                rw [Int.add_comm]
                exact heq
              · have hva' : visited a = true := by
                  rwa [updF_other _ _ _ _ hav] at hva
                have hvb' : visited b = true := by
                  rwa [updF_other _ _ _ _ hbv] at hvb
                rw [hvv1_old a hva', hvv1_old b hvb']
                exact inv.edges_ok a b e hedge hva' hvb'
            · -- no_self
              intro w e hedge
              by_cases hwv : w = v
              · exfalso
                rw [hwv] at hedge
                exact hNoSelfAdj e ((mem_adjacent_iff g v v e).mpr (Or.inl hedge))
              · rw [updF_other _ _ _ _ hwv]
                exact inv.no_self w e hedge
            · -- wf_stack
              intro pr hpr
              rcases List.mem_append.mp hpr with hn | hr
              · obtain ⟨e1, hm, _⟩ := hc3 pr hn
                exact (adjacent_lt_of_WF hWF hm).1
              · exact inv.wf_stack pr (List.mem_cons_of_mem _ hr)
            · -- parents_visited
              intro p x hpx
              rcases List.mem_append.mp hpx with hn | hr
              · have hpv : p = v := Option.some.inj ((hc2 _ hn).1)
                rw [hpv]
                exact updF_same ..
              · exact updF_visited_mono _ _ _
                  (inv.parents_visited p x (List.mem_cons_of_mem _ hr))
            · -- parent_adj
              intro p x hpx
              rcases List.mem_append.mp hpx with hn | hr
              · obtain ⟨e1, hm, _⟩ := hc3 _ hn
                have hpv : p = v := Option.some.inj ((hc2 _ hn).1)
                exact ⟨e1, hpv ▸ mem_adjacent_symm hm⟩
              · exact inv.parent_adj p x (List.mem_cons_of_mem _ hr)
            · -- entry_ok
              intro p x hpx hxfresh
              rcases List.mem_append.mp hpx with hn | hr
              · -- freshly pushed entry: parent is v
                have hpv : p = v := Option.some.inj ((hc2 _ hn).1)
                rw [hpv]
                rw [hpv] at hpx hn
                have hxv : x ≠ v := (hnews_fresh _ hn).1
                by_cases hcnt2 : 2 ≤ (g.adjacent x).countP (fun q => q.1 = v)
                · left
                  unfold Falsy
                  refine scanFalses_of_two hcnt2 ?_ _
                  rw [updF_other _ _ _ _ (Ne.symm hxv), updF_same]
                · right
                  obtain ⟨e1, hm, hval⟩ := hc3 _ hn
                  have hsymm := countP_adjacent_symm g v x
                  have hcx : 0 < (g.adjacent x).countP (fun q => q.1 = v) :=
                    List.countP_pos.mpr ⟨(v, e1), mem_adjacent_symm hm, by simp⟩
                  have hcnt1 : (g.adjacent x).countP (fun q => q.1 = v) = 1 := by
                    omega
                  have hcv1 : (g.adjacent v).countP (fun q => q.1 = x) ≤ 1 := by
                    omega
                  have hval2 := hc6 x e1 hcv1 hm
                    (List.countP_pos.mpr ⟨(some v, x), hn, by simp⟩)
                  refine ⟨e1, mem_adjacent_symm hm, hcnt1, ?_⟩
                  rw [hval2, hvv1v]
                  calc pymod ((e1 : Int) - vv v) g.N + vv v
                      ≡ ((e1 : Int) - vv v) + vv v [ZMOD (g.N : Int)] :=
                        Int.ModEq.add_right _ (pymod_modEq _ _)
                    _ = (e1 : Int) := by ring
              · -- surviving entry
                have hxv : x ≠ v := by
                  intro hx
                  rw [hx, updF_same] at hxfresh
                  cases hxfresh
                have hxfresh' : visited x = false := by
                  rwa [updF_other _ _ _ _ hxv] at hxfresh
                by_cases hpush : 0 < news.countP (fun pr => pr.2 = x)
                · -- x was (re)assigned by this scan: doomed via the edge to v
                  left
                  obtain ⟨pr1, hpr1, hpr12⟩ := List.countP_pos.mp hpush
                  simp only [decide_eq_true_eq] at hpr12
                  obtain ⟨e1, hm, _⟩ := hc3 _ hpr1
                  rw [hpr12] at hm
                  have hvp : v ≠ p := by
                    intro hx
                    have := inv.parents_visited p x (List.mem_cons_of_mem _ hr)
                    rw [← hx, hvfresh] at this
                    cases this
                  unfold Falsy
                  refine scanFalses_of_mem_ne (mem_adjacent_symm hm) ?_ ?_ true
                  · rw [updF_other _ _ _ _ (Ne.symm hxv), updF_same]
                  · simpa using hvp
                · -- untouched: the old disjunction persists
                  have hnp : news.countP (fun pr => pr.2 = x) = 0 := by omega
                  have hvx : vv1 x = vv x := hc5 x hnp
                  rcases inv.entry_ok p x (List.mem_cons_of_mem _ hr) hxfresh'
                    with hfals | ⟨e0, hm, hcnt, heq⟩
                  · left
                    exact Falsy_mono (fun y hy => updF_visited_mono _ _ _ hy) hfals
                  · right
                    have hpold : visited p = true :=
                      inv.parents_visited p x (List.mem_cons_of_mem _ hr)
                    refine ⟨e0, hm, hcnt, ?_⟩
                    rw [hvx, hvv1_old p hpold]
                    exact heq
            · -- falsy_revisit
              intro p x hpx hxvis
              rcases List.mem_append.mp hpx with hn | hr
              · exfalso
                have := (hc2 _ hn).2
                rw [hxvis] at this
                cases this
              · by_cases hxv : x = v
                · -- a deeper copy of the popped vertex: impossible here
                  exfalso
                  have hpold : visited p = true :=
                    inv.parents_visited p x (List.mem_cons_of_mem _ hr)
                  obtain ⟨e1, hm1⟩ :=
                    inv.parent_adj p x (List.mem_cons_of_mem _ hr)
                  have hm1v : (p, e1) ∈ g.adjacent v := hxv ▸ hm1
                  have h7 := (hc7 p e1 hm1v (updF_visited_mono _ _ _ hpold)).2
                  refine hNoDup p h7 ?_
                  rw [← hxv]
                  exact hr
                · have hxvis' : visited x = true := by
                    rwa [updF_other _ _ _ _ hxv] at hxvis
                  exact Falsy_mono (fun y hy => updF_visited_mono _ _ _ hy)
                    (inv.falsy_revisit p x (List.mem_cons_of_mem _ hr) hxvis')
            · -- dup_falsy
              intro p x hcount
              rw [List.count_append] at hcount
              by_cases h2n : 2 ≤ news.count ((some p, x) : StackEntry)
              · have hmemn : ((some p, x) : StackEntry) ∈ news :=
                  List.count_pos_iff_mem.mp (by omega)
                have hpv : p = v := Option.some.inj ((hc2 _ hmemn).1)
                rw [hpv]
                rw [hpv] at h2n hmemn
                have hxv : x ≠ v := (hnews_fresh _ hmemn).1
                have hcp : 2 ≤ news.countP (fun pr => pr.2 = x) := by
                  have hmono : news.count ((some v, x) : StackEntry) ≤
                      news.countP (fun pr => pr.2 = x) := by
                    have hcnt : news.count ((some v, x) : StackEntry) =
                        news.countP (fun pr => pr == ((some v, x) : StackEntry)) :=
                      rfl
                    rw [hcnt]
                    refine List.countP_mono_left ?_
                    intro pr hpr hbeq
                    have : pr = ((some v, x) : StackEntry) := eq_of_beq hbeq
                    simp [this]
                  omega
                have hcadj : 2 ≤ (g.adjacent x).countP (fun q => q.1 = v) := by
                  have h9 := hc9 x
                  have hsymm := countP_adjacent_symm g v x
                  omega
                unfold Falsy
                refine scanFalses_of_two hcadj ?_ _
                rw [updF_other _ _ _ _ (Ne.symm hxv), updF_same]
              · by_cases h1n : news.count ((some p, x) : StackEntry) = 1
                · exfalso
                  have hmemn : ((some p, x) : StackEntry) ∈ news :=
                    List.count_pos_iff_mem.mp (by omega)
                  have hmemr : ((some p, x) : StackEntry) ∈ rest :=
                    List.count_pos_iff_mem.mp (by omega)
                  have hpv : p = v := Option.some.inj ((hc2 _ hmemn).1)
                  have := inv.parents_visited p x (List.mem_cons_of_mem _ hmemr)
                  rw [hpv, hvfresh] at this
                  cases this
                · have hrest2 : 2 ≤ rest.count ((some p, x) : StackEntry) := by
                    omega
                  have hold : 2 ≤ ((q?, v) :: rest).count
                      ((some p, x) : StackEntry) := by
                    rw [List.count_cons]
                    omega
                  exact Falsy_mono (fun y hy => updF_visited_mono _ _ _ hy)
                    (inv.dup_falsy p x hold)
            · -- none_entries
              intro x hx
              exfalso
              rcases List.mem_append.mp hx with hn | hr
              · have := (hc2 _ hn).1
                cases this
              · obtain ⟨hsingle, _⟩ := inv.none_entries x
                  (List.mem_cons_of_mem _ hr)
                have hrnil : rest = [] := by
                  have h := hsingle
                  injection h with ha hb
                rw [hrnil] at hr
                cases hr
            · -- stack_assigned
              intro pr hpr
              rcases List.mem_append.mp hpr with hn | hr
              · obtain ⟨e1, _, hval⟩ := hc3 _ hn
                rw [hval]
                exact pymod_nonneg _ _ hN0
              · by_cases hpush : 0 < news.countP (fun q => q.2 = pr.2)
                · obtain ⟨pr1, hpr1, hpr12⟩ := List.countP_pos.mp hpush
                  simp only [decide_eq_true_eq] at hpr12
                  obtain ⟨e1, _, hval⟩ := hc3 _ hpr1
                  rw [hpr12] at hval
                  rw [hval]
                  exact pymod_nonneg _ _ hN0
                · have hnp : news.countP (fun q => q.2 = pr.2) = 0 := by omega
                  rw [hc5 _ hnp]
                  exact inv.stack_assigned pr (List.mem_cons_of_mem _ hr)
            · -- visited_assigned
              intro y hy
              by_cases hyv : y = v
              · subst hyv
                rw [hvv1v]
                exact inv.stack_assigned _ hheadmem
              · have hy' : visited y = true := by
                  rwa [updF_other _ _ _ _ hyv] at hy
                rw [hvv1_old y hy']
                exact inv.visited_assigned y hy'
          -- step the loop and recurse
          have hcount : countVisited g.N (updF visited v true) =
              countVisited g.N visited + 1 := countVisited_mark hvN hvfresh
          obtain ⟨r, hr, hdone⟩ := ih (news ++ rest) (updF visited v true) vv1
            inv' (by omega)
          refine ⟨r, ?_, ?_⟩
          · show dfsLoop g (fuel + 1) ((q?, v) :: rest) visited vv = some r
            simp only [dfsLoop]
            rw [hscan]
            exact hr
          · intro visited2 vv2 hreq
            obtain ⟨hinv2, hmono2, hstack2⟩ := hdone visited2 vv2 hreq
            refine ⟨hinv2, ?_, ?_⟩
            · intro y hy
              exact hmono2 y (updF_visited_mono _ _ _ hy)
            · intro pr hpr
              rcases List.mem_cons.mp hpr with rfl | hprr
              · exact hmono2 _ (updF_same ..)
              · exact hstack2 pr (List.mem_append.mpr (Or.inr hprr))

/-- The outer loop over roots: under the invariant (with empty stack)
and remaining roots covering all unvisited vertices, `rootsLoop` always
returns, and returns `True` only with a fully visited, invariant-closing
final state. -/
theorem rootsLoop_sound (g : Graph) (hWF : g.WF) :
    ∀ (roots : List Nat) (visited : Visited) (vv : VV),
      (∀ r ∈ roots, r < g.N) →
      Inv g [] visited vv →
      (∀ x, x < g.N → visited x = true ∨ x ∈ roots) →
      ∃ res, rootsLoop g roots visited vv = some res ∧
        (res.1 = true →
          ∃ visited2, Inv g [] visited2 res.2 ∧
            (∀ x, x < g.N → visited2 x = true)) := by
  intro roots
  induction roots with
  | nil =>
    intro visited vv hroots inv hcover
    have hall : ((List.range g.N).all (fun v => decide ((0 : Int) ≤ vv v))) =
        true := by
      rw [List.all_eq_true]
      intro v hv
      have hvN := List.mem_range.mp hv
      rcases hcover v hvN with hvis | hmem
      · simpa using inv.visited_assigned v hvis
      · cases hmem
    refine ⟨(true, vv), ?_, ?_⟩
    · show rootsLoop g [] visited vv = some (true, vv)
      simp only [rootsLoop]
      rw [if_pos hall]
    · intro _
      refine ⟨visited, inv, ?_⟩
      intro x hx
      rcases hcover x hx with hvis | hmem
      · exact hvis
      · cases hmem
  | cons r rs ih =>
    intro visited vv hroots inv hcover
    by_cases hvr : visited r = true
    · obtain ⟨res, hres, hconc⟩ := ih visited vv
        (fun x hx => hroots x (List.mem_cons_of_mem _ hx)) inv
        (by
          intro x hx
          rcases hcover x hx with hvis | hmem
          · exact Or.inl hvis
          · rcases List.mem_cons.mp hmem with rfl | hxs
            · exact Or.inl hvr
            · exact Or.inr hxs)
      refine ⟨res, ?_, hconc⟩
      show rootsLoop g (r :: rs) visited vv = some res
      simp only [rootsLoop]
      rw [if_pos hvr]
      exact hres
    · have hvrf : visited r = false := by simpa using hvr
      have hrN : r < g.N := hroots r (List.mem_cons_self ..)
      have inv1 : Inv g [(none, r)] visited (updF vv r 0) := by
        refine ⟨?_, inv.no_self, ?_, ?_, ?_, ?_, ?_, ?_, ?_, ?_, ?_⟩
        · intro a b e hedge hva hvb
          have har : a ≠ r := fun h => by rw [h, hvrf] at hva; cases hva
          have hbr : b ≠ r := fun h => by rw [h, hvrf] at hvb; cases hvb
          rw [updF_other _ _ _ _ har, updF_other _ _ _ _ hbr]
          exact inv.edges_ok a b e hedge hva hvb
        · intro pr hpr
          obtain rfl := List.mem_singleton.mp hpr
          exact hrN
        · intro p x hpx
          obtain h := List.mem_singleton.mp hpx
          cases (Prod.mk.injEq .. ▸ h).1
        · intro p x hpx
          obtain h := List.mem_singleton.mp hpx
          cases (Prod.mk.injEq .. ▸ h).1
        · intro p x hpx _
          obtain h := List.mem_singleton.mp hpx
          cases (Prod.mk.injEq .. ▸ h).1
        · intro p x hpx _
          obtain h := List.mem_singleton.mp hpx
          cases (Prod.mk.injEq .. ▸ h).1
        · intro p x hcnt
          exfalso
          have hmem : ((some p, x) : StackEntry) ∈ [((none : Option Nat), r)] :=
            List.count_pos_iff_mem.mp (by omega)
          obtain h := List.mem_singleton.mp hmem
          cases (Prod.mk.injEq .. ▸ h).1
        · intro x hx
          obtain h := List.mem_singleton.mp hx
          obtain ⟨-, rfl⟩ := Prod.mk.injEq .. ▸ h
          exact ⟨rfl, hvrf⟩
        · intro pr hpr
          obtain rfl := List.mem_singleton.mp hpr
          rw [updF_same]
        · intro y hy
          have hyr : y ≠ r := fun h => by rw [h, hvrf] at hy; cases hy
          rw [updF_other _ _ _ _ hyr]
          exact inv.visited_assigned y hy
      obtain ⟨resd, hresd, hdone⟩ := dfsLoop_sound g hWF (g.N + 1) [(none, r)]
        visited (updF vv r 0) inv1 (by omega)
      cases resd with
      | falsed vv1 =>
        refine ⟨(false, vv1), ?_, ?_⟩
        · show rootsLoop g (r :: rs) visited vv = some (false, vv1)
          simp only [rootsLoop]
          rw [if_neg (by simp [hvrf]), hresd]
        · intro h
          cases h
      | done visited2 vv2 =>
        obtain ⟨inv2, hmono2, hstack2⟩ := hdone visited2 vv2 rfl
        have hvis2r : visited2 r = true := by
          have := hstack2 ((none : Option Nat), r) (List.mem_singleton.mpr rfl)
          simpa using this
        obtain ⟨res, hres, hconc⟩ := ih visited2 vv2
          (fun x hx => hroots x (List.mem_cons_of_mem _ hx)) inv2
          (by
            intro x hx
            rcases hcover x hx with hvis | hmem
            · exact Or.inl (hmono2 x hvis)
            · rcases List.mem_cons.mp hmem with rfl | hxs
              · exact Or.inl hvis2r
              · exact Or.inr hxs)
        refine ⟨res, ?_, hconc⟩
        show rootsLoop g (r :: rs) visited vv = some res
        simp only [rootsLoop]
        rw [if_neg (by simp [hvrf]), hresd]
        exact hres

/-- `assign_vertex_values` on a well-formed graph always returns (no
crash, no assertion failure), and a `True` return implies the full edge
constraint and the absence of self-loops. -/
theorem assign_vertex_values_spec (g : Graph) (hWF : g.WF) :
    ∃ b vvr, g.assign_vertex_values = some (b, vvr) ∧
      (b = true →
        (∀ a c e, (a, c, e) ∈ g.edges →
          (vvr a + vvr c) ≡ (e : Int) [ZMOD (g.N : Int)]) ∧
        (∀ v e, (v, v, e) ∈ g.edges → False)) := by
  have inv0 : Inv g [] (fun _ => false) (fun _ => (-1 : Int)) := by
    refine ⟨?_, ?_, ?_, ?_, ?_, ?_, ?_, ?_, ?_, ?_, ?_⟩ <;>
      simp [edgesOK]
  obtain ⟨res, hres, hconc⟩ := rootsLoop_sound g hWF (List.range g.N)
    (fun _ => false) (fun _ => (-1 : Int))
    (fun r hr => List.mem_range.mp hr) inv0
    (fun x hx => Or.inr (List.mem_range.mpr hx))
  refine ⟨res.1, res.2, ?_, ?_⟩
  · show g.assign_vertex_values = some (res.1, res.2)
    unfold Graph.assign_vertex_values
    rw [hres]
  · intro hb
    obtain ⟨visited2, inv2, hall⟩ := hconc hb
    constructor
    · intro a c e hedge
      obtain ⟨haN, hcN⟩ := hWF a c e hedge
      exact inv2.edges_ok a c e hedge (hall a haN) (hall c hcN)
    · intro v e hedge
      have hvN := (hWF v v e hedge).1
      have := inv2.no_self v e hedge
      rw [hall v hvN] at this
      cases this

/-! ## The trial graph of `generate_hash` -/

theorem foldl_connect_edges (f1 f2 : List Nat → Nat) :
    ∀ (l : List (Nat × List Nat)) (g0 : Graph),
      (l.foldl (fun g p => g.connect (f1 p.2) (f2 p.2) p.1) g0).N = g0.N ∧
      (l.foldl (fun g p => g.connect (f1 p.2) (f2 p.2) p.1) g0).edges =
        g0.edges ++ l.map (fun p => (f1 p.2, f2 p.2, p.1)) := by
  intro l
  induction l with
  | nil => intro g0; simp
  | cons hd t ih =>
    intro g0
    have iht := ih (g0.connect (f1 hd.2) (f2 hd.2) hd.1)
    simp only [List.foldl_cons, List.map_cons]
    refine ⟨iht.1, ?_⟩
    rw [iht.2]
    simp [Graph.connect]

theorem buildGraph_N (NG : Nat) (keys : List (List Nat))
    (f1 f2 : List Nat → Nat) : (buildGraph NG keys f1 f2).N = NG :=
  (foldl_connect_edges f1 f2 keys.enum ⟨NG, []⟩).1

theorem buildGraph_edges (NG : Nat) (keys : List (List Nat))
    (f1 f2 : List Nat → Nat) :
    (buildGraph NG keys f1 f2).edges =
      keys.enum.map (fun p => (f1 p.2, f2 p.2, p.1)) := by
  have := (foldl_connect_edges f1 f2 keys.enum ⟨NG, []⟩).2
  simpa [buildGraph] using this

theorem buildGraph_WF (NG : Nat) (keys : List (List Nat))
    (f1 f2 : List Nat → Nat)
    (hb : ∀ k ∈ keys, f1 k < NG ∧ f2 k < NG) :
    (buildGraph NG keys f1 f2).WF := by
  intro a c e hedge
  rw [buildGraph_edges] at hedge
  obtain ⟨⟨i, k⟩, hmem, heq⟩ := List.mem_map.mp hedge
  have hk : k ∈ keys := by
    have h := List.mk_mem_enum_iff_getElem?.mp hmem
    have hlt : i < keys.length := by
      by_contra hge
      rw [List.getElem?_eq_none (by omega)] at h
      cases h
    have hget : keys[i] = k := by
      rw [List.getElem?_eq_getElem hlt] at h
      exact Option.some.inj h
    rw [← hget]
    exact List.getElem_mem ..
  obtain ⟨rfl, rfl, rfl⟩ : f1 k = a ∧ f2 k = c ∧ i = e :=
    ⟨congrArg Prod.fst heq, congrArg (fun p => p.2.1) heq,
      congrArg (fun p => p.2.2) heq⟩
  rw [buildGraph_N]
  exact hb k hk

theorem getD_map_range (f : Nat → Int) (n i : Nat) (h : i < n) :
    ((List.range n).map f).getD i 0 = f i := by
  have hlen : i < ((List.range n).map f).length := by
    simp [h]
  rw [List.getD_eq_getElem _ _ hlen]
  simp

/-! ## Claims C1 and C3 -/

/-- C1: whenever `assign_vertex_values` returns `True` on the trial
graph built with one edge per key connecting `f1(key)` and `f2(key)`
and carrying the key's index as edge value, the vertex-value table `G`
satisfies `(G[f1(key)] + G[f2(key)]) mod N == index(key)` for every
key; hence the verifier's per-key assertion in `generate_hash` never
fails after a successful assignment. -/
theorem claim_C1 (keys : List (List Nat)) (f1 f2 : List Nat → Nat) (NG : Nat)
    (table : List Int)
    (hb : ∀ k ∈ keys, f1 k < NG ∧ f2 k < NG)
    (hlen : keys.length ≤ NG)
    (hassign : (buildGraph NG keys f1 f2).assignList = some (true, table)) :
    (∀ (i : Nat) (hi : i < keys.length),
      pymod (table.getD (f1 (keys.get ⟨i, hi⟩)) 0 +
        table.getD (f2 (keys.get ⟨i, hi⟩)) 0) NG = (i : Int)) ∧
    verifyKeys keys f1 f2 NG table = true := by
  have hWF := buildGraph_WF NG keys f1 f2 hb
  obtain ⟨b, vvr, hsome, himpl⟩ := assign_vertex_values_spec _ hWF
  have hAL : (buildGraph NG keys f1 f2).assignList =
      some (b, (List.range (buildGraph NG keys f1 f2).N).map vvr) := by
    unfold Graph.assignList
    rw [hsome]
    rfl
  rw [hassign] at hAL
  have hpair := Option.some.inj hAL
  have hbtrue : b = true := (congrArg Prod.fst hpair).symm
  have htab : table = (List.range NG).map vvr := by
    have := congrArg Prod.snd hpair
    rwa [buildGraph_N] at this
  obtain ⟨hedges, -⟩ := himpl hbtrue
  have hkey : ∀ (i : Nat) (hi : i < keys.length),
      pymod (table.getD (f1 (keys.get ⟨i, hi⟩)) 0 +
        table.getD (f2 (keys.get ⟨i, hi⟩)) 0) NG = (i : Int) := by
    intro i hi
    have hkmem : keys.get ⟨i, hi⟩ ∈ keys := List.get_mem ..
    have hmemenum : (i, keys.get ⟨i, hi⟩) ∈ keys.enum := by
      rw [List.mk_mem_enum_iff_getElem?]
      rw [List.getElem?_eq_getElem hi]
      rw [List.get_eq_getElem]
    have hedge : (f1 (keys.get ⟨i, hi⟩), f2 (keys.get ⟨i, hi⟩), i) ∈
        (buildGraph NG keys f1 f2).edges := by
      rw [buildGraph_edges]
      exact List.mem_map.mpr ⟨(i, keys.get ⟨i, hi⟩), hmemenum, rfl⟩
    have hmod := hedges _ _ _ hedge
    rw [buildGraph_N] at hmod
    rw [htab, getD_map_range _ _ _ (hb _ hkmem).1,
      getD_map_range _ _ _ (hb _ hkmem).2]
    refine pymod_eq_of_modEq hmod (by positivity) ?_
    have : i < NG := by omega
    exact_mod_cast this
  refine ⟨hkey, ?_⟩
  unfold verifyKeys
  rw [List.all_eq_true]
  intro p hp
  obtain ⟨i, k⟩ := p
  have hq := List.mk_mem_enum_iff_getElem?.mp hp
  have hi : i < keys.length := by
    by_contra hge
    rw [List.getElem?_eq_none (by omega)] at hq
    cases hq
  have hk : keys.get ⟨i, hi⟩ = k := by
    rw [List.get_eq_getElem]
    rw [List.getElem?_eq_getElem hi] at hq
    exact Option.some.inj hq
  have := hkey i hi
  rw [hk] at this
  simpa using this

/-- C3: a `connect(v, v, e)` self-loop (as arises when
`f1(key) == f2(key)`) makes `assign_vertex_values` return `False` with
no exception or crash, and a trial whose graph contains a self-loop
makes the search loop retry with the next trial's fresh hash
functions. -/
theorem claim_C3 :
    (∀ (g : Graph), g.WF → ∀ v e, (v, v, e) ∈ g.edges →
      ∃ vvr, g.assign_vertex_values = some (false, vvr)) ∧
    (∀ (keys : List (List Nat)) (T : Nat) (pw : Bool) (mk : HashGen)
        (fuel trial NG NG1 : Nat),
      NG1 = (if trial % T == 0 && decide (0 < trial) then grow pw NG else NG) →
      ¬ (100 * (keys.length + 1) < NG1) →
      (buildGraph NG1 keys (mk trial NG1).1 (mk trial NG1).2).WF →
      (∃ v e, (v, v, e) ∈
        (buildGraph NG1 keys (mk trial NG1).1 (mk trial NG1).2).edges) →
      searchLoop keys T pw mk (fuel + 1) trial NG =
        searchLoop keys T pw mk fuel (trial + 1) NG1) := by
  have hmain : ∀ (g : Graph), g.WF → ∀ v e, (v, v, e) ∈ g.edges →
      ∃ vvr, g.assign_vertex_values = some (false, vvr) := by
    intro g hWF v e hself
    obtain ⟨b, vvr, hsome, himpl⟩ := assign_vertex_values_spec g hWF
    cases b with
    | true => exact absurd hself (fun h => (himpl rfl).2 v e h)
    | false => exact ⟨vvr, hsome⟩
  refine ⟨hmain, ?_⟩
  intro keys T pw mk fuel trial NG NG1 hNG1 hceil hWF hself
  obtain ⟨v, e, hv⟩ := hself
  obtain ⟨vvr, hfalse⟩ := hmain _ hWF v e hv
  have hAL : (buildGraph NG1 keys (mk trial NG1).1 (mk trial NG1).2).assignList =
      some (false, (List.range
        (buildGraph NG1 keys (mk trial NG1).1 (mk trial NG1).2).N).map vvr) := by
    unfold Graph.assignList
    rw [hfalse]
    rfl
  show searchLoop keys T pw mk (fuel + 1) trial NG = _
  simp only [searchLoop]
  rw [← hNG1, if_neg hceil, hAL]

/-- Witness for C1 at a concrete two-key input. -/
theorem claim_C1_witness :
    verifyKeys [[97], [98]] (fun k => if k = [97] then 0 else 1) (fun _ => 2) 3
      [0, 1, 0] = true :=
  (claim_C1 [[97], [98]] (fun k => if k = [97] then 0 else 1) (fun _ => 2) 3
    [0, 1, 0] (by decide) (by decide) (by decide)).2

/-- Witness for C3 on a concrete graph with a self-loop. -/
theorem claim_C3_witness :
    ∃ vvr, (Graph.assign_vertex_values ⟨2, [(0, 0, 5)]⟩) = some (false, vvr) :=
  claim_C3.1 ⟨2, [(0, 0, 5)]⟩
    (by
      intro a b e h
      simp only [List.mem_singleton, Prod.mk.injEq] at h
      obtain ⟨rfl, rfl, rfl⟩ := h
      exact ⟨by decide, by decide⟩)
    0 5 (by decide)

/-! ## Claim C2 (corrected): the empty key list is NOT rejected -/

/-- Counterexample to C2 as stated: `generate_hash([])` raises nothing
and returns a result (the one-entry table `[0]`), so the empty key
list is not detected and no `InvalidInput` error is raised. -/
theorem claim_C2_counterexample :
    generate_hash (.pylist []) 50 false (fun _ _ => (fun _ => 0, fun _ => 0)) 1 =
      some (.ok [0]) := rfl

/-- C2 (amended): `generate_hash` with an empty key list passes
validation (no error of any kind), and the very first trial succeeds
with the trivial table `[0]` — for every hash generator, trial
threshold, `pow2` flag, and positive fuel. -/
theorem claim_C2 (T : Nat) (pw : Bool) (mk : HashGen) (fuel : Nat)
    (hfuel : 0 < fuel) :
    generate_hash (.pylist []) T pw mk fuel = some (.ok [0]) := by
  obtain ⟨n, rfl⟩ : ∃ n, fuel = n + 1 := ⟨fuel - 1, by omega⟩
  have hinit : initNG pw 0 = 1 := by
    cases pw
    · simp [initNG]
    · simp [initNG, pow2loop]
  unfold generate_hash
  simp only [validate, validateSeq]
  norm_num
  rw [hinit]
  simp only [searchLoop]
  norm_num
  have hAL : (buildGraph 1 [] (mk 0 1).1 (mk 0 1).2).assignList =
      some (true, [0]) := rfl
  rw [hAL]

/-- Witness for the amended C2 at concrete arguments. -/
theorem claim_C2_witness :
    generate_hash (.pylist []) 50 true (fun _ _ => (fun _ => 0, fun _ => 0)) 7 =
      some (.ok [0]) :=
  claim_C2 50 true (fun _ _ => (fun _ => 0, fun _ => 0)) 7 (by decide)

/-! ## Claim C6: duplicate keys fail fast -/

/-- C6: every key list containing a duplicate key raises the
duplicate-keys `ValueError` before any trial: the result is that error
for every hash generator, threshold, `pow2` flag, and even zero fuel
(so no trial graph or hash instance can have been constructed). -/
theorem claim_C6 (xs : List PyVal) (hdup : ¬ xs.Nodup)
    (T : Nat) (pw : Bool) (mk : HashGen) (fuel : Nat) :
    generate_hash (.pylist xs) T pw mk fuel =
      some (.error .valueErrorDuplicateKeys) := by
  have hle : xs.dedup.length ≤ xs.length := xs.dedup_sublist.length_le
  have hlt : xs.dedup.length < xs.length := by
    rcases Nat.lt_or_ge xs.dedup.length xs.length with h | h
    · exact h
    · exact absurd (xs.dedup_sublist.eq_of_length (by omega) ▸ xs.nodup_dedup)
        hdup
  have hv : validate (.pylist xs) = .error .valueErrorDuplicateKeys := by
    show validateSeq xs = .error .valueErrorDuplicateKeys
    unfold validateSeq
    rw [if_pos (by omega)]
  unfold generate_hash
  rw [hv]

/-- Witness for C6 at the concrete duplicate-bearing list `["a","b","a"]`. -/
theorem claim_C6_witness :
    generate_hash (.pylist [.pystr [97], .pystr [98], .pystr [97]]) 50 false
      (fun _ _ => (fun _ => 0, fun _ => 0)) 0 =
      some (.error .valueErrorDuplicateKeys) :=
  claim_C6 [.pystr [97], .pystr [98], .pystr [97]] (by decide) 50 false
    (fun _ _ => (fun _ => 0, fun _ => 0)) 0

/-! ## Claim C10: non-list/tuple inputs are rejected first -/

/-- C10: every `keys` argument that is not a Python list or tuple —
including sets and generators of valid distinct strings — raises
`TypeError("list or tuple expected")`, before the duplicate and string
checks (whose outcome is ignored) and before any trial (zero fuel also
returns the error). -/
theorem claim_C10 (keys : PyKeys)
    (hnot : (∀ xs, keys ≠ .pylist xs) ∧ (∀ xs, keys ≠ .pytuple xs)) :
    ∀ (T : Nat) (pw : Bool) (mk : HashGen) (fuel : Nat),
      generate_hash keys T pw mk fuel =
        some (.error .typeErrorNotListOrTuple) := by
  intro T pw mk fuel
  cases keys with
  | pylist xs => exact absurd rfl (hnot.1 xs)
  | pytuple xs => exact absurd rfl (hnot.2 xs)
  | pyset xs => rfl
  | pygenerator xs => rfl
  | pyother => rfl

/-- Witness for C10: a set of two valid, distinct strings is rejected
with the `TypeError`, not with any later validation error. -/
theorem claim_C10_witness :
    generate_hash (.pyset [.pystr [97], .pystr [98]]) 50 false
      (fun _ _ => (fun _ => 0, fun _ => 0)) 5 =
      some (.error .typeErrorNotListOrTuple) :=
  claim_C10 (.pyset [.pystr [97], .pystr [98]])
    ⟨(fun xs h => by cases h), (fun xs h => by cases h)⟩ 50 false
    (fun _ _ => (fun _ => 0, fun _ => 0)) 5

/-! ## Claim C4: salt growth -/

/-- A key no longer than the salt triggers no draw at all. -/
theorem growSalt_stop (rng : Nat → Nat) (salt : List Nat) (cur len : Nat)
    (h : len ≤ salt.length) : growSalt rng salt cur len = (salt, cur) := by
  unfold growSalt
  rw [dif_neg (by omega)]

/-- The salt-extension loop only appends, and afterwards the salt
covers the key. -/
theorem growSalt_grows (rng : Nat → Nat) :
    ∀ (k : Nat) (salt : List Nat) (cur len : Nat), len - salt.length ≤ k →
      (salt <+: (growSalt rng salt cur len).1) ∧
      len ≤ (growSalt rng salt cur len).1.length := by
  intro k
  induction k with
  | zero =>
    intro salt cur len hk
    rw [growSalt_stop rng salt cur len (by omega)]
    exact ⟨List.prefix_refl _, by show len ≤ salt.length; omega⟩
  | succ k ih =>
    intro salt cur len hk
    by_cases hlt : salt.length < len
    · have hstep : growSalt rng salt cur len =
          growSalt rng (salt ++ [rng cur]) (cur + 1) len := by
        conv_lhs => unfold growSalt
        rw [dif_pos hlt]
      rw [hstep]
      have := ih (salt ++ [rng cur]) (cur + 1) len
        (by simp [List.length_append]; omega)
      refine ⟨List.IsPrefix.trans ⟨[rng cur], rfl⟩ this.1, this.2⟩
    · rw [growSalt_stop rng salt cur len (by omega)]
      exact ⟨List.prefix_refl _, by show len ≤ salt.length; omega⟩

/-- C4: for `StrSaltHash` and `IntSaltHash` alike, a call only ever
appends to the salt (the old salt is a prefix of the new one), a key no
longer than the current salt leaves the salt (and the draw cursor)
untouched, and calling the instance again with the same key afterwards
returns the identical hash value with the salt unchanged. -/
theorem claim_C4 (N : Nat) (salt : List Nat) (rng : Nat → Nat) (cur : Nat)
    (key : List Nat) :
    (salt <+: (strSaltHashCall N salt rng cur key).1 ∧
      (key.length ≤ salt.length →
        strSaltHashCall N salt rng cur key =
          (salt, cur, weightedSum salt key % N)) ∧
      (strSaltHashCall N (strSaltHashCall N salt rng cur key).1 rng
          (strSaltHashCall N salt rng cur key).2.1 key =
        strSaltHashCall N salt rng cur key)) ∧
    (salt <+: (intSaltHashCall N salt rng cur key).1 ∧
      (key.length ≤ salt.length →
        intSaltHashCall N salt rng cur key =
          (salt, cur, weightedSum salt key % N)) ∧
      (intSaltHashCall N (intSaltHashCall N salt rng cur key).1 rng
          (intSaltHashCall N salt rng cur key).2.1 key =
        intSaltHashCall N salt rng cur key)) := by
  have hgrow := growSalt_grows rng (key.length - salt.length) salt cur
    key.length (by omega)
  have hstr : (strSaltHashCall N salt rng cur key).1 =
      (growSalt rng salt cur key.length).1 := rfl
  have hmain : salt <+: (strSaltHashCall N salt rng cur key).1 ∧
      (key.length ≤ salt.length →
        strSaltHashCall N salt rng cur key =
          (salt, cur, weightedSum salt key % N)) ∧
      (strSaltHashCall N (strSaltHashCall N salt rng cur key).1 rng
          (strSaltHashCall N salt rng cur key).2.1 key =
        strSaltHashCall N salt rng cur key) := by
    refine ⟨hstr ▸ hgrow.1, ?_, ?_⟩
    · intro hle
      unfold strSaltHashCall
      rw [growSalt_stop rng salt cur key.length hle]
    · show strSaltHashCall N (growSalt rng salt cur key.length).1 rng
          (growSalt rng salt cur key.length).2 key =
        strSaltHashCall N salt rng cur key
      unfold strSaltHashCall
      rw [growSalt_stop rng _ _ key.length hgrow.2]
  exact ⟨hmain, hmain⟩

/-- Witness for C4 at concrete arguments. -/
theorem claim_C4_witness :
    strSaltHashCall 7 [5, 6] (fun _ => 3) 0 [10] =
      ([5, 6], 0, weightedSum [5, 6] [10] % 7) :=
  (claim_C4 7 [5, 6] (fun _ => 3) 0 [10]).1.2.1 (by decide)

/-! ## Claims C5 and C7: size growth and the search ceiling -/

/-- C7: the growth check of the search loop fires exactly when
`trial % T == 0` with `trial > 0` (`T` defaults to 50); growth doubles
`NG` in `pow2` mode and otherwise sets it to
`max(NG + 1, int(1.05 * NG))` (the float product modelled exactly as
`21 * NG / 20`); in both modes the grown value is strictly larger, for
every `NG ≥ 1`. -/
theorem claim_C7 (T trial NG : Nat) (pw : Bool) (hNG : 1 ≤ NG) :
    (trial % T = 0 → 0 < trial →
      (if trial % T == 0 && decide (0 < trial) then grow pw NG else NG) =
        grow pw NG) ∧
    (¬(trial % T = 0 ∧ 0 < trial) →
      (if trial % T == 0 && decide (0 < trial) then grow pw NG else NG) = NG) ∧
    grow true NG = NG * 2 ∧
    grow false NG = max (NG + 1) (21 * NG / 20) ∧
    NG < grow pw NG ∧
    trialsDefault = 50 := by
  refine ⟨?_, ?_, rfl, rfl, ?_, rfl⟩
  · intro h0 hpos
    rw [if_pos]
    simp [h0, hpos]
  · intro hnot
    rw [if_neg]
    simp only [Bool.and_eq_true, beq_iff_eq, decide_eq_true_eq]
    intro hc
    exact hnot ⟨hc.1, hc.2⟩
  · cases pw <;> simp [grow] <;> omega

/-- Witness for C7 at concrete arguments. -/
theorem claim_C7_witness :
    ((if 50 % 50 == 0 && decide (0 < 50) then grow false 100 else 100) =
      grow false 100) ∧ 100 < grow false 100 := by
  have h := claim_C7 50 50 100 false (by decide)
  exact ⟨h.1 (by decide) (by decide), h.2.2.2.2.1⟩

/-- C5: in each iteration of the search loop, if the (possibly just
grown) size exceeds `100 * (NK + 1)` the loop aborts at once with
`TooManyInterationsError` carrying the key count and produces no
result; within the ceiling no such error is raised in that iteration —
the loop instead runs the trial. -/
theorem claim_C5 (keys : List (List Nat)) (T : Nat) (pw : Bool)
    (mk : HashGen) (fuel trial NG NG1 : Nat)
    (hNG1 : NG1 =
      (if trial % T == 0 && decide (0 < trial) then grow pw NG else NG)) :
    (100 * (keys.length + 1) < NG1 →
      searchLoop keys T pw mk (fuel + 1) trial NG =
        some (.error (.tooManyIterations keys.length))) ∧
    (¬ 100 * (keys.length + 1) < NG1 →
      searchLoop keys T pw mk (fuel + 1) trial NG =
        (match (buildGraph NG1 keys (mk trial NG1).1 (mk trial NG1).2).assignList
          with
         | some (true, table) => some (.ok table)
         | _ => searchLoop keys T pw mk fuel (trial + 1) NG1)) := by
  constructor
  · intro hceil
    simp only [searchLoop]
    rw [← hNG1, if_pos hceil]
  · intro hceil
    simp only [searchLoop]
    rw [← hNG1, if_neg hceil]

/-- Witness for C5: with 0 keys and size 200 the ceiling `100 * 1` is
exceeded and the loop raises the error carrying the key count 0. -/
theorem claim_C5_witness :
    searchLoop [] 50 false (fun _ _ => (fun _ => 0, fun _ => 0)) 1 0 200 =
      some (.error (.tooManyIterations 0)) :=
  (claim_C5 [] 50 false (fun _ _ => (fun _ => 0, fun _ => 0)) 0 0 200 200
    (by decide)).1 (by decide)

/-! ## Claim C8: power-of-two mode -/

/-- `pow2loop` doubles a positive start until it reaches `target`:
the result is `NG * 2 ^ j`, at least `target`, and the previous
doubling step (if any) was still short of `target`. -/
theorem pow2loop_spec :
    ∀ (k target NG : Nat), target - NG ≤ k → 0 < NG →
      ∃ j : Nat, pow2loop target NG = NG * 2 ^ j ∧
        target ≤ pow2loop target NG ∧
        (j = 0 ∨ NG * 2 ^ (j - 1) < target) := by
  intro k
  induction k with
  | zero =>
    intro target NG hk h0
    have hstop : pow2loop target NG = NG := by
      unfold pow2loop
      rw [dif_neg (by omega)]
    exact ⟨0, by simpa using hstop, by rw [hstop]; omega, Or.inl rfl⟩
  | succ k ih =>
    intro target NG hk h0
    by_cases hlt : NG < target
    · have hstep : pow2loop target NG = pow2loop target (NG * 2) := by
        conv_lhs => unfold pow2loop
        rw [dif_pos ⟨h0, hlt⟩]
      obtain ⟨j, hval, hge, hmin⟩ := ih target (NG * 2) (by omega) (by omega)
      refine ⟨j + 1, ?_, hstep ▸ hge, ?_⟩
      · rw [hstep, hval]
        ring
      · right
        rcases hmin with rfl | hj
        · simpa using hlt
        · rcases Nat.eq_zero_or_pos j with rfl | hjpos
          · simpa using hlt
          · have hpow : NG * 2 * 2 ^ (j - 1) = NG * 2 ^ j := by
              rw [Nat.mul_assoc]
              congr 1
              rw [← Nat.pow_succ']
              congr 1
              omega
            rw [show j + 1 - 1 = j from rfl, ← hpow]
            exact hj
    · have hstop : pow2loop target NG = NG := by
        unfold pow2loop
        rw [dif_neg (by omega)]
      exact ⟨0, by simpa using hstop, by rw [hstop]; omega, Or.inl rfl⟩

/-- Splitting an equality of concatenations at a point past the first
left factor. -/
theorem append_eq_append_split {α : Type} {a y pre z : List α}
    (h : a ++ y = pre ++ z) (hlen : a.length ≤ pre.length) :
    ∃ pre2, pre = a ++ pre2 ∧ y = pre2 ++ z := by
  have hta : (a ++ y).take a.length = a := by
    simp [List.take_append]
  have htp : (pre ++ z).take a.length = pre.take a.length :=
    List.take_append_of_le_length hlen
  have ha : a = pre.take a.length := by
    conv_lhs => rw [← hta]
    rw [h, htp]
  have hpre : a ++ pre.drop a.length = pre := by
    conv_rhs => rw [← List.take_append_drop a.length pre]
    rw [← ha]
  refine ⟨pre.drop a.length, hpre.symm, ?_⟩
  have h2 : a ++ y = a ++ (pre.drop a.length ++ z) := by
    rw [h]
    conv_lhs => rw [← hpre]
    rw [List.append_assoc]
  exact List.append_cancel_left h2

/-- Prefixes of a fully rewritten text that avoid both lead characters
come from the original text. -/
theorem replaceAll_prefix_transfer {p0 r0 : Char} {pt rt : List Char} :
    ∀ (n : Nat) (s v : List Char), s.length ≤ n → r0 ∉ v → p0 ∉ v →
      v <+: replaceAll (p0 :: pt) (r0 :: rt) s → v <+: s := by
  intro n
  induction n with
  | zero =>
    intro s v hlen hr0 hp0 hpre
    have hs : s = [] := List.length_eq_zero.mp (by omega)
    subst hs
    simpa [replaceAll] using hpre
  | succ n ih =>
    intro s v hlen hr0 hp0 hpre
    cases s with
    | nil => simpa [replaceAll] using hpre
    | cons c cs =>
      by_cases hb : (p0 :: pt) ≠ [] ∧ (p0 :: pt).isPrefixOf (c :: cs)
      · rw [show replaceAll (p0 :: pt) (r0 :: rt) (c :: cs) =
            (r0 :: rt) ++ replaceAll (p0 :: pt) (r0 :: rt)
              ((c :: cs).drop (p0 :: pt).length) by
              conv_lhs => unfold replaceAll
              rw [dif_pos hb]] at hpre
        cases v with
        | nil => exact List.nil_prefix
        | cons v0 v2 =>
          exfalso
          obtain ⟨t, ht⟩ := hpre
          have hv0 : v0 = r0 := by
            have := congrArg (fun l => l.headI) ht
            simpa using this
          exact hr0 (hv0 ▸ List.mem_cons_self ..)
      · rw [show replaceAll (p0 :: pt) (r0 :: rt) (c :: cs) =
            c :: replaceAll (p0 :: pt) (r0 :: rt) cs by
              conv_lhs => unfold replaceAll
              rw [dif_neg hb]] at hpre
        cases v with
        | nil => exact List.nil_prefix
        | cons v0 v2 =>
          obtain ⟨t, ht⟩ := hpre
          have hv0 : v0 = c := by
            have := congrArg (fun l => l.headI) ht
            simpa using this
          have hv2 : v2 <+: replaceAll (p0 :: pt) (r0 :: rt) cs := by
            refine ⟨t, ?_⟩
            have := congrArg List.tail ht
            simpa using this
          have hcs : v2 <+: cs :=
            ih cs v2 (by simp at hlen; omega)
              (fun h => hr0 (List.mem_cons_of_mem _ h))
              (fun h => hp0 (List.mem_cons_of_mem _ h)) hv2
          rw [hv0]
          exact (List.prefix_cons_inj c).mpr hcs

/-- After `replaceAll`, no occurrence of the pattern remains, provided
the pattern's head does not occur in the replacement, the replacement's
head does not occur in the pattern, and the pattern's head does not
recur in its own tail. -/
theorem replaceAll_no_occur {p0 r0 : Char} {pt rt : List Char}
    (hp0r : p0 ∉ (r0 :: rt)) (hr0p : r0 ∉ (p0 :: pt)) (hp0t : p0 ∉ pt) :
    ∀ (n : Nat) (s : List Char), s.length ≤ n →
      ¬ occursIn (p0 :: pt) (replaceAll (p0 :: pt) (r0 :: rt) s) := by
  intro n
  induction n with
  | zero =>
    intro s hlen hocc
    have hs : s = [] := List.length_eq_zero.mp (by omega)
    subst hs
    obtain ⟨pre, suf, heq⟩ := hocc
    have := congrArg List.length heq
    simp [replaceAll] at this
    omega
  | succ n ih =>
    intro s hlen hocc
    cases s with
    | nil =>
      obtain ⟨pre, suf, heq⟩ := hocc
      have := congrArg List.length heq
      simp [replaceAll] at this
      omega
    | cons c cs =>
      by_cases hb : (p0 :: pt) ≠ [] ∧ (p0 :: pt).isPrefixOf (c :: cs)
      · rw [show replaceAll (p0 :: pt) (r0 :: rt) (c :: cs) =
            (r0 :: rt) ++ replaceAll (p0 :: pt) (r0 :: rt)
              ((c :: cs).drop (p0 :: pt).length) by
              conv_lhs => unfold replaceAll
              rw [dif_pos hb]] at hocc
        obtain ⟨pre, suf, heq⟩ := hocc
        rw [List.append_assoc] at heq
        by_cases hl : (r0 :: rt).length ≤ pre.length
        · obtain ⟨pre2, hpre2, hX⟩ := append_eq_append_split heq hl
          refine ih ((c :: cs).drop (p0 :: pt).length) ?_
            ⟨pre2, suf, by rw [List.append_assoc]; exact hX⟩
          simp only [List.length_drop, List.length_cons] at hlen ⊢
          omega
        · have heq2 : pre ++ ((p0 :: pt) ++ suf) = (r0 :: rt) ++
              replaceAll (p0 :: pt) (r0 :: rt)
                ((c :: cs).drop (p0 :: pt).length) := heq.symm
          obtain ⟨mid, hmid, hrest⟩ := append_eq_append_split heq2 (by omega)
          cases mid with
          | nil =>
            rw [List.append_nil] at hmid
            rw [← hmid] at hl
            exact hl (Nat.le_refl _)
          | cons m0 mid2 =>
            have hm0 : p0 = m0 := by
              have := congrArg (fun l => l.headI) hrest
              simpa using this
            have hmem : p0 ∈ (r0 :: rt) := by
              rw [hmid, hm0]
              exact List.mem_append.mpr (Or.inr (List.mem_cons_self ..))
            exact hp0r hmem
      · rw [show replaceAll (p0 :: pt) (r0 :: rt) (c :: cs) =
            c :: replaceAll (p0 :: pt) (r0 :: rt) cs by
              conv_lhs => unfold replaceAll
              rw [dif_neg hb]] at hocc
        obtain ⟨pre, suf, heq⟩ := hocc
        cases pre with
        | nil =>
          simp only [List.nil_append] at heq
          have hc : c = p0 := by
            have := congrArg (fun l => l.headI) heq
            simpa using this
          have htail : replaceAll (p0 :: pt) (r0 :: rt) cs = pt ++ suf := by
            have := congrArg List.tail heq
            simpa using this
          have hptcs : pt <+: cs :=
            replaceAll_prefix_transfer n cs pt (by simp at hlen; omega)
              (fun h => hr0p (List.mem_cons_of_mem _ h)) hp0t ⟨suf, htail.symm⟩
          refine hb ⟨by simp, ?_⟩
          rw [ List.isPrefixOf_iff_prefix, hc]
          exact (List.prefix_cons_inj p0).mpr hptcs
        | cons d pre2 =>
          have hy : replaceAll (p0 :: pt) (r0 :: rt) cs =
              pre2 ++ (p0 :: pt) ++ suf := by
            have := congrArg List.tail heq
            simpa using this
          exact ih cs (by simp at hlen; omega) ⟨pre2, suf, hy⟩

/-- The characters `"%d"` emits are decimal digits. -/
theorem natChars_digits :
    ∀ (k n : Nat), n ≤ k → ∀ c ∈ natChars n,
      c ∈ ['0', '1', '2', '3', '4', '5', '6', '7', '8', '9'] := by
  have hd : ∀ m : Nat, m < 10 →
      Nat.digitChar m ∈ ['0', '1', '2', '3', '4', '5', '6', '7', '8', '9'] := by
    decide
  intro k
  induction k with
  | zero =>
    intro n hn c hc
    obtain rfl : n = 0 := by omega
    rw [show natChars 0 = [Nat.digitChar 0] by unfold natChars; rw [dif_pos]; omega]
      at hc
    obtain rfl := List.mem_singleton.mp hc
    exact hd 0 (by omega)
  | succ k ih =>
    intro n hn c hc
    by_cases hlt : n < 10
    · rw [show natChars n = [Nat.digitChar n] by
        unfold natChars; rw [dif_pos hlt]] at hc
      obtain rfl := List.mem_singleton.mp hc
      exact hd n hlt
    · rw [show natChars n = natChars (n / 10) ++ [Nat.digitChar (n % 10)] by
        conv_lhs => unfold natChars
        rw [dif_neg hlt]] at hc
      rcases List.mem_append.mp hc with hc1 | hc2
      · exact ih (n / 10) (by omega) c hc1
      · obtain rfl := List.mem_singleton.mp hc2
        exact hd (n % 10) (by omega)

/-- C8: in `pow2` mode the vertex count is a power of two at every
trial — the initial size is the least power of two at least `NK + 1`
and every growth step doubles, preserving powers of two — and the
emitted text contains no occurrence of the modulus literal `"% NG"`,
every occurrence having been replaced by the `"& NG-1"` mask form. -/
theorem claim_C8 (NK : Nat) :
    (isPow2 (initNG true NK) ∧ NK + 1 ≤ initNG true NK ∧
      (∀ m, isPow2 m → NK + 1 ≤ m → initNG true NK ≤ m)) ∧
    (∀ NG, isPow2 NG → isPow2 (grow true NG)) ∧
    (∀ (s : List Char) (NG : Nat), ¬ occursIn (modPat NG) (pow2Rewrite s NG)) := by
  obtain ⟨j, hval, hge, hmin⟩ :=
    pow2loop_spec (NK + 1) (NK + 1) 1 (by omega) (by omega)
  have hinit : initNG true NK = 2 ^ j := by
    unfold initNG
    rw [if_pos rfl, hval]
    ring
  refine ⟨⟨⟨j, hinit⟩, ?_, ?_⟩, ?_, ?_⟩
  · unfold initNG at hinit ⊢
    rw [if_pos rfl] at hinit ⊢
    omega
  · intro m hm hmge
    obtain ⟨i, rfl⟩ := hm
    rw [hinit]
    rcases hmin with rfl | hsmall
    · calc (2 : Nat) ^ 0 = 1 := by norm_num
        _ ≤ 2 ^ i := Nat.one_le_two_pow
    · refine Nat.pow_le_pow_right (by omega) ?_
      simp only [Nat.one_mul] at hsmall
      have hlt : (2 : Nat) ^ (j - 1) < 2 ^ i := by omega
      have hji : j - 1 < i := (Nat.pow_lt_pow_iff_right (by omega)).mp hlt
      rcases Nat.eq_zero_or_pos j with rfl | hj
      · omega
      · omega
  · intro NG hNG
    obtain ⟨i, rfl⟩ := hNG
    exact ⟨i + 1, by rw [grow]; simp [Nat.pow_succ]⟩
  · intro s NG
    have hdigN := natChars_digits NG NG (Nat.le_refl _)
    have hdigN1 := natChars_digits (NG - 1) (NG - 1) (Nat.le_refl _)
    have hp0r : ('%' : Char) ∉ ('&' :: ' ' :: natChars (NG - 1)) := by
      intro h
      rcases List.mem_cons.mp h with h1 | h
      · cases h1
      rcases List.mem_cons.mp h with h1 | h
      · cases h1
      · have := hdigN1 _ h
        simp at this
    have hr0p : ('&' : Char) ∉ ('%' :: ' ' :: natChars NG) := by
      intro h
      rcases List.mem_cons.mp h with h1 | h
      · cases h1
      rcases List.mem_cons.mp h with h1 | h
      · cases h1
      · have := hdigN _ h
        simp at this
    have hp0t : ('%' : Char) ∉ (' ' :: natChars NG) := by
      intro h
      rcases List.mem_cons.mp h with h1 | h
      · cases h1
      · have := hdigN _ h
        simp at this
    exact replaceAll_no_occur hp0r hr0p hp0t s.length s (Nat.le_refl _)

/-- Witness for C8 at `NK = 4`: the initial `pow2` size is 8, and the
doubling step preserves powers of two. -/
theorem claim_C8_witness :
    isPow2 (initNG true 4) ∧ 4 + 1 ≤ initNG true 4 ∧ initNG true 4 ≤ 8 ∧
      isPow2 (grow true 8) := by
  have h := claim_C8 4
  exact ⟨h.1.1, h.1.2.1, h.1.2.2 8 ⟨3, rfl⟩ (by omega), h.2.1 8 ⟨3, rfl⟩⟩

/-! ## Claim C9: the empty-string key -/

theorem strSaltFn_lt (salt : List Nat) {N2 : Nat} (h : 0 < N2)
    (key : List Nat) : strSaltFn salt N2 key < N2 :=
  Nat.mod_lt _ h

/-- The weighted sum over the zero bytes of the empty key is 0, so both
hash functions send `""` to vertex 0. -/
theorem strSaltFn_nil (salt : List Nat) (N2 : Nat) :
    strSaltFn salt N2 [] = 0 := by
  unfold strSaltFn weightedSum
  simp

/-- A key list containing the empty string yields a trial graph with a
self-loop at vertex 0, whatever the salts. -/
theorem selfLoop_of_empty_key (NG1 : Nat) (ks : List (List Nat))
    (f1 f2 : List Nat → Nat) (hmem : ([] : List Nat) ∈ ks)
    (h1 : f1 [] = 0) (h2 : f2 [] = 0) :
    ∃ i, (0, 0, i) ∈ (buildGraph NG1 ks f1 f2).edges := by
  obtain ⟨i, hi, hgi⟩ := List.mem_iff_getElem.mp hmem
  refine ⟨i, ?_⟩
  rw [buildGraph_edges]
  refine List.mem_map.mpr ⟨(i, []), ?_, ?_⟩
  · rw [List.mk_mem_enum_iff_getElem?, List.getElem?_eq_getElem hi, hgi]
  · simp [h1, h2]

/-- Any trial whose two hash functions are weighted-sum (`StrSaltHash`
shaped) functions fails on a key list containing the empty string. -/
theorem trial_fails_on_empty_key (ks : List (List Nat))
    (f1 f2 : List Nat → Nat) (NG1 : Nat) (hNG1 : 1 ≤ NG1)
    (hf : ∃ s1 s2, f1 = strSaltFn s1 NG1 ∧ f2 = strSaltFn s2 NG1)
    (hmem : ([] : List Nat) ∈ ks) :
    ∃ tbl, (buildGraph NG1 ks f1 f2).assignList = some (false, tbl) := by
  obtain ⟨s1, s2, rfl, rfl⟩ := hf
  have hWF : (buildGraph NG1 ks (strSaltFn s1 NG1) (strSaltFn s2 NG1)).WF :=
    buildGraph_WF _ _ _ _ (fun k _ =>
      ⟨strSaltFn_lt s1 (by omega) k, strSaltFn_lt s2 (by omega) k⟩)
  obtain ⟨i, hself⟩ := selfLoop_of_empty_key NG1 ks _ _ hmem
    (strSaltFn_nil s1 NG1) (strSaltFn_nil s2 NG1)
  obtain ⟨b, vvr, hsome, himpl⟩ := assign_vertex_values_spec _ hWF
  cases b with
  | true => exact absurd hself (fun h => (himpl rfl).2 0 i h)
  | false =>
    refine ⟨(List.range
      (buildGraph NG1 ks (strSaltFn s1 NG1) (strSaltFn s2 NG1)).N).map vvr, ?_⟩
    unfold Graph.assignList
    rw [hsome]
    rfl

/-- One failing iteration of the search loop steps to the next trial. -/
theorem searchLoop_step_false (ks : List (List Nat)) (T : Nat) (pw : Bool)
    (mk : HashGen) (fuel trial NG NG1 : Nat)
    (hNG1 : NG1 =
      (if trial % T == 0 && decide (0 < trial) then grow pw NG else NG))
    (hceil : ¬ 100 * (ks.length + 1) < NG1)
    (hfail : ∃ tbl,
      (buildGraph NG1 ks (mk trial NG1).1 (mk trial NG1).2).assignList =
        some (false, tbl)) :
    searchLoop ks T pw mk (fuel + 1) trial NG =
      searchLoop ks T pw mk fuel (trial + 1) NG1 := by
  obtain ⟨tbl, hfail⟩ := hfail
  simp only [searchLoop]
  rw [← hNG1, if_neg hceil, hfail]

/-- Growing never shrinks, and is strict from any positive size. -/
theorem grow_ge (pw : Bool) (NG : Nat) : NG ≤ grow pw NG := by
  cases pw <;> simp [grow] <;> omega

theorem grow_gt (pw : Bool) (NG : Nat) (h : 1 ≤ NG) : NG < grow pw NG := by
  cases pw <;> simp [grow] <;> omega

/-- An iteration over the ceiling raises the error at once. -/
theorem searchLoop_raise (ks : List (List Nat)) (T : Nat) (pw : Bool)
    (mk : HashGen) (fuel trial NG : Nat)
    (hceil : 100 * (ks.length + 1) <
      (if trial % T == 0 && decide (0 < trial) then grow pw NG else NG)) :
    searchLoop ks T pw mk (fuel + 1) trial NG =
      some (.error (.tooManyIterations ks.length)) := by
  simp only [searchLoop]
  rw [if_pos hceil]

/-- If every trial fails, the search loop never returns a result. -/
theorem searchLoop_never_ok (ks : List (List Nat)) (T : Nat) (pw : Bool)
    (mk : HashGen)
    (hfail : ∀ t M, 1 ≤ M →
      ∃ tbl, (buildGraph M ks (mk t M).1 (mk t M).2).assignList =
        some (false, tbl)) :
    ∀ (fuel trial NG : Nat), 1 ≤ NG → ∀ r : List Int,
      searchLoop ks T pw mk fuel trial NG ≠ some (.ok r) := by
  intro fuel
  induction fuel with
  | zero =>
    intro trial NG hNG r
    simp [searchLoop]
  | succ fuel ih =>
    intro trial NG hNG r
    by_cases hceil : 100 * (ks.length + 1) <
        (if trial % T == 0 && decide (0 < trial) then grow pw NG else NG)
    · rw [searchLoop_raise ks T pw mk fuel trial NG hceil]
      simp
    · have hNG1 : 1 ≤
          (if trial % T == 0 && decide (0 < trial) then grow pw NG else NG) := by
        split
        · exact le_trans hNG (grow_ge pw NG)
        · exact hNG
      rw [searchLoop_step_false ks T pw mk fuel trial NG _ rfl hceil
        (hfail trial _ hNG1)]
      exact ih (trial + 1) _ hNG1 r

/-- If every trial fails, enough fuel drives the loop into the
too-many-iterations error: the size grows strictly on every `T`-th
trial until it exceeds the ceiling. -/
theorem searchLoop_tooMany (ks : List (List Nat)) (T : Nat) (pw : Bool)
    (mk : HashGen) (hT : 0 < T)
    (hfail : ∀ t M, 1 ≤ M →
      ∃ tbl, (buildGraph M ks (mk t M).1 (mk t M).2).assignList =
        some (false, tbl)) :
    ∀ (meas trial NG : Nat), 1 ≤ NG →
      (100 * (ks.length + 1) + 1 - NG) * (T + 1) +
        (if trial % T = 0 ∧ 0 < trial then 0 else T - trial % T) ≤ meas →
      ∃ fuel, searchLoop ks T pw mk fuel trial NG =
        some (.error (.tooManyIterations ks.length)) := by
  intro meas
  induction meas with
  | zero =>
    intro trial NG hNG hm
    have hC : 100 * (ks.length + 1) < NG := by
      by_contra hle
      have h1 : 1 ≤ 100 * (ks.length + 1) + 1 - NG := by omega
      have h2 : T + 1 ≤ (100 * (ks.length + 1) + 1 - NG) * (T + 1) :=
        Nat.le_mul_of_pos_left _ (by omega)
      omega
    refine ⟨1, searchLoop_raise ks T pw mk 0 trial NG ?_⟩
    split
    · exact lt_of_lt_of_le hC (grow_ge pw NG)
    · exact hC
  | succ meas ih =>
    intro trial NG hNG hm
    by_cases hceil : 100 * (ks.length + 1) <
        (if trial % T == 0 && decide (0 < trial) then grow pw NG else NG)
    · exact ⟨1, searchLoop_raise ks T pw mk 0 trial NG hceil⟩
    · have hmlt : trial % T < T := Nat.mod_lt _ hT
      by_cases hgrow : trial % T = 0 ∧ 0 < trial
      · have hie : (if trial % T == 0 && decide (0 < trial) then grow pw NG
            else NG) = grow pw NG := by
          rw [if_pos]
          simp [hgrow.1, hgrow.2]
        have hlt : NG < grow pw NG := grow_gt pw NG hNG
        have hgleC : grow pw NG ≤ 100 * (ks.length + 1) := by
          rw [hie] at hceil
          omega
        have hd : (if trial % T = 0 ∧ 0 < trial then 0 else T - trial % T) =
            0 := if_pos hgrow
        have hd1 : (if (trial + 1) % T = 0 ∧ 0 < trial + 1 then 0
            else T - (trial + 1) % T) ≤ T := by
          split
          · omega
          · omega
        have h2 : (100 * (ks.length + 1) + 1 - grow pw NG) * (T + 1) +
            (T + 1) ≤ (100 * (ks.length + 1) + 1 - NG) * (T + 1) := by
          calc (100 * (ks.length + 1) + 1 - grow pw NG) * (T + 1) + (T + 1)
              = ((100 * (ks.length + 1) + 1 - grow pw NG) + 1) * (T + 1) := by
                ring
            _ ≤ (100 * (ks.length + 1) + 1 - NG) * (T + 1) :=
                Nat.mul_le_mul_right _ (by omega)
        obtain ⟨fuel, hf⟩ := ih (trial + 1) (grow pw NG) (by omega) (by omega)
        refine ⟨fuel + 1, ?_⟩
        rw [searchLoop_step_false ks T pw mk fuel trial NG _ rfl hceil
          (hfail trial _ (by rw [hie]; omega))]
        rw [hie]
        exact hf
      · have hie : (if trial % T == 0 && decide (0 < trial) then grow pw NG
            else NG) = NG := by
          rw [if_neg]
          simp only [Bool.and_eq_true, beq_iff_eq, decide_eq_true_eq]
          intro hc
          exact hgrow ⟨hc.1, hc.2⟩
        have hd : (if trial % T = 0 ∧ 0 < trial then 0 else T - trial % T) =
            T - trial % T := if_neg hgrow
        have hstep_mod : (trial + 1) % T =
            (if trial % T + 1 = T then 0 else trial % T + 1) := by
          by_cases hT1 : T = 1
          · subst hT1
            simp [Nat.mod_one]
          · have hT2 : 1 < T := by omega
            rw [Nat.add_mod, Nat.mod_eq_of_lt hT2]
            by_cases hx : trial % T + 1 = T
            · rw [if_pos hx, hx, Nat.mod_self]
            · rw [if_neg hx, Nat.mod_eq_of_lt (by omega)]
        have hd1 : (if (trial + 1) % T = 0 ∧ 0 < trial + 1 then 0
            else T - (trial + 1) % T) < T - trial % T ∨
            ((trial + 1) % T = 0 ∧
              (if (trial + 1) % T = 0 ∧ 0 < trial + 1 then 0
                else T - (trial + 1) % T) = 0 ∧ 0 < T - trial % T) := by
          by_cases hx : trial % T + 1 = T
          · right
            rw [hstep_mod, if_pos hx]
            refine ⟨rfl, ?_, by omega⟩
            rw [if_pos ⟨rfl, by omega⟩]
          · left
            have hmod1 : (trial + 1) % T = trial % T + 1 := by
              rw [hstep_mod, if_neg hx]
            rw [hmod1]
            split
            · omega
            · omega
        obtain ⟨fuel, hf⟩ := ih (trial + 1) NG hNG (by
          rcases hd1 with h | ⟨_, hz, hpos⟩
          · omega
          · omega)
        refine ⟨fuel + 1, ?_⟩
        rw [searchLoop_step_false ks T pw mk fuel trial NG _ rfl hceil
          (hfail trial _ (by rw [hie]; omega))]
        rw [hie]
        exact hf

theorem length_filterMap_asStr :
    ∀ (xs : List PyVal), (∀ x ∈ xs, (asStr x).isSome) →
      (xs.filterMap asStr).length = xs.length := by
  intro xs
  induction xs with
  | nil => intro _; rfl
  | cons hd t ih =>
    intro h
    have hhd := h hd (List.mem_cons_self ..)
    obtain ⟨y, hy⟩ := Option.isSome_iff_exists.mp hhd
    rw [List.filterMap_cons, hy]
    simp only [List.length_cons]
    rw [ih (fun x hx => h x (List.mem_cons_of_mem _ hx))]

theorem initNG_pos (pw : Bool) (NK : Nat) : 1 ≤ initNG pw NK := by
  cases pw
  · simp [initNG]
  · obtain ⟨j, hval, hge, -⟩ :=
      pow2loop_spec (NK + 1) (NK + 1) 1 (by omega) (by omega)
    unfold initNG
    rw [if_pos rfl]
    omega

/-- Counterexample to C9 as stated: the key list `["", ""]` contains
the empty string, yet `generate_hash` raises the duplicate-keys
`ValueError` before any trial — it does not terminate by raising
`TooManyInterationsError`. -/
theorem claim_C9_counterexample :
    generate_hash (.pylist [.pystr [], .pystr []]) 50 false
      (fun _ M => (strSaltFn [] M, strSaltFn [] M)) 1 =
      some (.error .valueErrorDuplicateKeys) := rfl

/-- C9 (amended): for every list of DISTINCT string keys containing the
empty string, with `StrSaltHash`-shaped (weighted-sum) hash functions:
the empty string hashes to vertex 0 under any salt (the weighted sum
over zero bytes is 0 mod N), so every trial graph has a self-loop and
assignment fails; `generate_hash` never returns a result, and with
enough fuel it terminates by raising `TooManyInterationsError` carrying
the key count. -/
theorem claim_C9 (xs : List PyVal) (T : Nat) (pw : Bool) (mk : HashGen)
    (hT : 0 < T) (hdist : xs.Nodup)
    (hstr : ∀ x ∈ xs, (asStr x).isSome = true)
    (hempty : PyVal.pystr [] ∈ xs)
    (hmk : ∀ t M, ∃ s1 s2, mk t M = (strSaltFn s1 M, strSaltFn s2 M)) :
    (∀ (s2 : List Nat) (M : Nat), strSaltFn s2 M [] = 0) ∧
    (∀ (fuel : Nat) (r : List Int),
      generate_hash (.pylist xs) T pw mk fuel ≠ some (.ok r)) ∧
    (∃ fuel, generate_hash (.pylist xs) T pw mk fuel =
      some (.error (.tooManyIterations xs.length))) := by
  have hval : validate (.pylist xs) = .ok xs := by
    show validateSeq xs = .ok xs
    unfold validateSeq
    rw [if_neg (by rw [List.dedup_eq_self.mpr hdist]; omega), if_pos]
    exact List.all_eq_true.mpr hstr
  have hgen : ∀ fuel, generate_hash (.pylist xs) T pw mk fuel =
      searchLoop (xs.filterMap asStr) T pw mk fuel 0
        (initNG pw (xs.filterMap asStr).length) := by
    intro fuel
    unfold generate_hash
    rw [hval]
  have hmem : ([] : List Nat) ∈ xs.filterMap asStr :=
    List.mem_filterMap.mpr ⟨.pystr [], hempty, rfl⟩
  have hfail : ∀ t M, 1 ≤ M →
      ∃ tbl, (buildGraph M (xs.filterMap asStr)
        (mk t M).1 (mk t M).2).assignList = some (false, tbl) := by
    intro t M hM
    obtain ⟨s1, s2, hpair⟩ := hmk t M
    refine trial_fails_on_empty_key _ _ _ M hM ⟨s1, s2, ?_, ?_⟩ hmem
    · rw [hpair]
    · rw [hpair]
  have hinit := initNG_pos pw (xs.filterMap asStr).length
  refine ⟨fun s2 M => strSaltFn_nil s2 M, ?_, ?_⟩
  · intro fuel r
    rw [hgen fuel]
    exact searchLoop_never_ok _ T pw mk hfail fuel 0 _ hinit r
  · obtain ⟨fuel, hf⟩ := searchLoop_tooMany (xs.filterMap asStr) T pw mk hT
      hfail
      ((100 * ((xs.filterMap asStr).length + 1) + 1 -
        initNG pw (xs.filterMap asStr).length) * (T + 1) + T)
      0 (initNG pw (xs.filterMap asStr).length) hinit
      (by
        rw [if_neg (fun h => absurd h.2 (by omega))]
        have : 0 % T = 0 := Nat.zero_mod T
        omega)
    refine ⟨fuel, ?_⟩
    rw [hgen fuel, hf, length_filterMap_asStr xs hstr]

/-- Witness for the amended C9 on the single-key list `[""]`. -/
theorem claim_C9_witness :
    (∀ r : List Int,
      generate_hash (.pylist [.pystr []]) 1 false
        (fun _ M => (strSaltFn [] M, strSaltFn [] M)) 3 ≠ some (.ok r)) ∧
    (∃ fuel, generate_hash (.pylist [.pystr []]) 1 false
        (fun _ M => (strSaltFn [] M, strSaltFn [] M)) fuel =
      some (.error (.tooManyIterations 1))) := by
  have h := claim_C9 [.pystr []] 1 false
    (fun _ M => (strSaltFn [] M, strSaltFn [] M)) (by decide) (by decide)
    (by decide) (by decide) (fun t M => ⟨[], [], rfl⟩)
  exact ⟨h.2.1 3, h.2.2⟩

end PerfectHash
